import Mathlib

/-!
# Verification of the entt polymorphic-component engine

Shallow embedding of `src/entt/entity/polymorphic.hpp`:
the pool-allocated reference list (`polymorphic_component_ref_list`),
the slab page pool (`component_ref_list_page_source`), the per-entity
container cell (`polymorphic_component_container` together with
`polymorphic_container_memory_layout`), the `every` iterator, and the
registry-level hierarchy fan-out protocol.

Machine words are modelled as `Nat`; pointers are abstract addresses
(`Nat`).  The two tag bits of the cell's auxiliary pointer are modelled
by the `flags` field (`pointer & 3`), and the high bits by an `AddrVal`
that records which object the masked pointer designates.  All
definitions follow the C++ source; functions reading memory through a
pointer that does not designate an object of the read type return
`Option`-`none` (an indeterminate read).
-/

namespace EnttPoly

/-- `polymorphic_component_ref`: a `{pointer, deleter}` record stored in
reference lists.  Both words are abstract addresses. -/
structure PRef where
  pointer : Nat
  deleter : Nat
deriving DecidableEq, Repr

/-- Junk record used as the default result of an out-of-bounds slot read. -/
def junkRef : PRef := ⟨0, 0⟩

/-- Fuelled, kernel-reducible base-2 ceiling logarithm. -/
def clog2_go (fuel n : Nat) : Nat :=
  match fuel with
  | 0 => 0
  | f + 1 => if n ≤ 1 then 0 else clog2_go f ((n + 1) / 2) + 1

/-- Modelled from the spec: `next_power_of_two` lives in
`src/entt/core/memory.hpp`, which is not part of the sources; the spec
states that capacity always grows to the next power of two greater than
or equal to the requested size. -/
def next_power_of_two (n : Nat) : Nat := 2 ^ clog2_go n n

/-- View of a pool-allocated reference-list array
(`polymorphic_component_ref_list`): the two in-band header words
(`size`, `capacity`) and the slot contents.  `arr` is the physical slot
memory of the current array; entries past `size` are stale.  The null
sentinel (`null_list_base`) is `⟨0, 0, []⟩`. -/
structure RList where
  size : Nat
  cap : Nat
  arr : List PRef
deriving DecidableEq, Repr

/-- `null_list_base()`: the shared zero two-word sentinel. -/
def RList.nullList : RList := ⟨0, 0, []⟩

/-- Write a record into slot `i` of the physical array (`get_list()[i] = r`). -/
def writeSlot (a : List PRef) (i : Nat) (r : PRef) : List PRef :=
  if i < a.length then a.set i r else a ++ [r]

/-- `reserve(size)`: if `capacity < size`, allocate a fresh array of
capacity `next_power_of_two size` (whose in-band size word is
zero-initialised by `allocate_array` and is not copied by the
`memcpy`), copy the `old_size` records, and free the old base when
`old_size > 0`.  The returned flag records whether the old base was
freed. -/
def RList.reserve (k : Nat) (l : RList) : RList × Bool :=
  if l.cap < k then
    ({ size := 0, cap := next_power_of_two k, arr := l.arr.take l.size },
      decide (0 < l.size))
  else (l, false)

/-- `push_back(ref)`: read the size, reserve `size + 1`, write at index
`size`, store `size + 1` into the size word. -/
def RList.push_back (l : RList) (r : PRef) : RList :=
  { (l.reserve (l.size + 1)).1 with
      arr := writeSlot (l.reserve (l.size + 1)).1.arr l.size r,
      size := l.size + 1 }

/-- `clear()`: free the array and point the view at the null sentinel.
The freed physical slots survive in the page (only the first header
word is overwritten by the free-list link), so `arr` is kept: stale
reads through old element pointers still see the records. -/
def RList.clear (l : RList) : RList :=
  { size := 0, cap := 0, arr := l.arr }

/-- `pop_back()`: decrement the size; when it reaches zero, `clear()`. -/
def RList.pop_back (l : RList) : RList :=
  if l.size - 1 = 0 then RList.clear { l with size := l.size - 1 }
  else { l with size := l.size - 1 }

/-- The live records of a list: the first `size` physical slots. -/
def RList.live (l : RList) : List PRef := l.arr.take l.size

theorem clog2_go_eq (f : Nat) : ∀ n, n ≤ f → clog2_go f n = Nat.clog 2 n := by
  induction f with
  | zero =>
    intro n h
    have hn : n = 0 := Nat.le_zero.mp h
    subst hn
    simp [clog2_go]
  | succ f ih =>
    intro n h
    unfold clog2_go
    by_cases hn : n ≤ 1
    · rw [if_pos hn, Nat.clog_of_right_le_one hn 2]
    · have hf : (n + 1) / 2 ≤ f := by omega
      rw [if_neg hn, ih ((n + 1) / 2) hf]
      have hc := Nat.clog_of_two_le one_lt_two (show 2 ≤ n by omega)
      rw [hc]
      have h21 : n + 2 - 1 = n + 1 := by omega
      rw [h21]

theorem next_power_of_two_eq (n : Nat) : next_power_of_two n = 2 ^ Nat.clog 2 n := by
  unfold next_power_of_two
  rw [clog2_go_eq n n (Nat.le_refl n)]

theorem next_power_of_two_isPow2 (n : Nat) : ∃ k, next_power_of_two n = 2 ^ k :=
  ⟨Nat.clog 2 n, next_power_of_two_eq n⟩

theorem le_next_power_of_two (n : Nat) : n ≤ next_power_of_two n := by
  rw [next_power_of_two_eq]
  exact Nat.le_pow_clog one_lt_two n

theorem next_power_of_two_least (n k : Nat) (h : n ≤ 2 ^ k) :
    next_power_of_two n ≤ 2 ^ k := by
  rw [next_power_of_two_eq]
  exact Nat.pow_le_pow_right (by omega) ((Nat.le_pow_iff_clog_le one_lt_two).mp h)

theorem take_succ_set {α : Type} (a : List α) (n : Nat) (r : α) (h : n < a.length) :
    (a.set n r).take (n + 1) = a.take n ++ [r] := by
  induction a generalizing n with
  | nil => simp at h
  | cons x xs ih =>
    cases n with
    | zero => simp
    | succ m =>
      simp only [List.set_cons_succ, List.take_succ_cons, List.cons_append]
      rw [ih m (by simpa using h)]

theorem live_push_back_aux (a : List PRef) (n : Nat) (r : PRef) (h : n ≤ a.length) :
    (writeSlot a n r).take (n + 1) = a.take n ++ [r] := by
  unfold writeSlot
  rcases Nat.lt_or_ge n a.length with hlt | hge
  · rw [if_pos hlt]
    exact take_succ_set a n r hlt
  · have heq : n = a.length := Nat.le_antisymm h hge
    rw [if_neg (by omega)]
    subst heq
    simp [List.take_append]

/-- C2 (counterexample): `reserve` does **not** preserve the old size.
`allocate_array` zero-initialises the in-band size word of the fresh
array and `reserve` copies only the records, so a list of size 4 and
capacity 4 has size 0 after `reserve 5`. -/
theorem reserve_does_not_preserve_size :
    (⟨4, 4, [⟨8, 100⟩, ⟨12, 101⟩, ⟨16, 102⟩, ⟨20, 103⟩]⟩ : RList).cap < 5 ∧
    ((⟨4, 4, [⟨8, 100⟩, ⟨12, 101⟩, ⟨16, 102⟩, ⟨20, 103⟩]⟩ : RList).reserve 5).1.size ≠
      (⟨4, 4, [⟨8, 100⟩, ⟨12, 101⟩, ⟨16, 102⟩, ⟨20, 103⟩]⟩ : RList).size := by
  decide

/-- C2 (amended): for every reference list whose capacity is less than
`k`, `reserve k` installs a fresh array whose capacity is the smallest
power of two greater than or equal to `k`, copies exactly the old
records into it, frees the old base if and only if the old size was
positive, and leaves the size word of the fresh array equal to 0 (the
old size is *not* preserved; callers such as `push_back` restore it). -/
theorem reserve_spec (l : RList) (k : Nat) (h : l.cap < k) :
    (l.reserve k).1.cap = next_power_of_two k ∧
    k ≤ (l.reserve k).1.cap ∧
    (∀ j, k ≤ 2 ^ j → (l.reserve k).1.cap ≤ 2 ^ j) ∧
    (l.reserve k).1.arr = l.arr.take l.size ∧
    (l.reserve k).1.size = 0 ∧
    (l.reserve k).2 = decide (0 < l.size) := by
  unfold RList.reserve
  rw [if_pos h]
  exact ⟨rfl, le_next_power_of_two k, fun j hj => next_power_of_two_least k j hj, rfl, rfl, rfl⟩

/-- C2 (amended) witness at a concrete input. -/
theorem reserve_spec_witness :
    (⟨4, 4, [⟨8, 100⟩, ⟨12, 101⟩, ⟨16, 102⟩, ⟨20, 103⟩]⟩ : RList).cap < 5 ∧
    ((⟨4, 4, [⟨8, 100⟩, ⟨12, 101⟩, ⟨16, 102⟩, ⟨20, 103⟩]⟩ : RList).reserve 5).1.cap =
      next_power_of_two 5 ∧
    5 ≤ ((⟨4, 4, [⟨8, 100⟩, ⟨12, 101⟩, ⟨16, 102⟩, ⟨20, 103⟩]⟩ : RList).reserve 5).1.cap ∧
    (∀ j, 5 ≤ 2 ^ j →
      ((⟨4, 4, [⟨8, 100⟩, ⟨12, 101⟩, ⟨16, 102⟩, ⟨20, 103⟩]⟩ : RList).reserve 5).1.cap ≤ 2 ^ j) ∧
    ((⟨4, 4, [⟨8, 100⟩, ⟨12, 101⟩, ⟨16, 102⟩, ⟨20, 103⟩]⟩ : RList).reserve 5).1.arr =
      (⟨4, 4, [⟨8, 100⟩, ⟨12, 101⟩, ⟨16, 102⟩, ⟨20, 103⟩]⟩ : RList).arr.take 4 ∧
    ((⟨4, 4, [⟨8, 100⟩, ⟨12, 101⟩, ⟨16, 102⟩, ⟨20, 103⟩]⟩ : RList).reserve 5).1.size = 0 ∧
    ((⟨4, 4, [⟨8, 100⟩, ⟨12, 101⟩, ⟨16, 102⟩, ⟨20, 103⟩]⟩ : RList).reserve 5).2 =
      decide (0 < (⟨4, 4, [⟨8, 100⟩, ⟨12, 101⟩, ⟨16, 102⟩, ⟨20, 103⟩]⟩ : RList).size) :=
  ⟨by decide, reserve_spec ⟨4, 4, [⟨8, 100⟩, ⟨12, 101⟩, ⟨16, 102⟩, ⟨20, 103⟩]⟩ 5 (by decide)⟩

/-- C10: `push_back r` on a list of size `s` yields size `s + 1`, keeps
the records at indices `0 … s-1` and stores `r` at index `s`, also when
the write is preceded by a reallocating `reserve` (which resets the
size word: `push_back` captured the size beforehand and restores it). -/
theorem push_back_spec (l : RList) (r : PRef) (h : l.size ≤ l.arr.length) :
    (l.push_back r).size = l.size + 1 ∧
    (l.push_back r).live = l.live ++ [r] := by
  unfold RList.push_back RList.live RList.reserve
  rcases Nat.lt_or_ge l.cap (l.size + 1) with hlt | hge
  · rw [if_pos hlt]
    refine ⟨rfl, ?_⟩
    have htk : (l.arr.take l.size).length = l.size := by
      simp [List.length_take, Nat.min_eq_left h]
    have hx := live_push_back_aux (l.arr.take l.size) l.size r (Nat.le_of_eq htk.symm)
    simpa [List.take_take] using hx
  · rw [if_neg (by omega)]
    exact ⟨rfl, live_push_back_aux l.arr l.size r h⟩

/-- C10 witness: pushing onto a full list of size 4 (capacity 4)
reallocates and still appends correctly. -/
theorem push_back_spec_witness :
    (⟨4, 4, [⟨8, 100⟩, ⟨12, 101⟩, ⟨16, 102⟩, ⟨20, 103⟩]⟩ : RList).size ≤
      (⟨4, 4, [⟨8, 100⟩, ⟨12, 101⟩, ⟨16, 102⟩, ⟨20, 103⟩]⟩ : RList).arr.length ∧
    ((⟨4, 4, [⟨8, 100⟩, ⟨12, 101⟩, ⟨16, 102⟩, ⟨20, 103⟩]⟩ : RList).push_back ⟨24, 104⟩).size =
      (⟨4, 4, [⟨8, 100⟩, ⟨12, 101⟩, ⟨16, 102⟩, ⟨20, 103⟩]⟩ : RList).size + 1 ∧
    ((⟨4, 4, [⟨8, 100⟩, ⟨12, 101⟩, ⟨16, 102⟩, ⟨20, 103⟩]⟩ : RList).push_back ⟨24, 104⟩).live =
      (⟨4, 4, [⟨8, 100⟩, ⟨12, 101⟩, ⟨16, 102⟩, ⟨20, 103⟩]⟩ : RList).live ++ [⟨24, 104⟩] :=
  ⟨by decide, push_back_spec ⟨4, 4, [⟨8, 100⟩, ⟨12, 101⟩, ⟨16, 102⟩, ⟨20, 103⟩]⟩ ⟨24, 104⟩
    (by decide)⟩

/-! ## The container cell

`polymorphic_container_memory_layout` stores (1) an aligned byte buffer
of `max(sizeof(Component), sizeof(void*))` bytes and (2) a
`std::uintptr_t` whose two low bits are the REFERENCE and LIST flags.
The buffer holds either component-value bytes, a deleter pointer, or a
list base; the masked high bits of the auxiliary pointer hold either a
component address, a list base, or the null sentinel.  The model splits
the auxiliary pointer into `flags` (`pointer & 3`) and `addr` (the
masked high bits) and tags which kind of object each word designates,
so that reads through a word that does not currently hold the expected
kind are modelled as indeterminate (`Option`-`none` or a junk default),
exactly the reads the C++ source would perform through a stale or
reinterpreted pointer. -/

/-- Contents of the cell's byte buffer. -/
inductive BufVal where
  | comp : BufVal
  | deleterWord : Nat → BufVal
  | listBaseWord : BufVal
  | nullBaseWord : BufVal
deriving DecidableEq, Repr

/-- The masked high bits (`pointer & ~3`) of the auxiliary pointer. -/
inductive AddrVal where
  | comp : Nat → AddrVal
  | listBase : AddrVal
  | nullBase : AddrVal
deriving DecidableEq, Repr

/-- Does the masked pointer designate a component value? -/
def AddrVal.isComp : AddrVal → Bool
  | .comp _ => true
  | _ => false

/-- The designated component address, junk (`0`) otherwise. -/
def AddrVal.compAddr : AddrVal → Nat
  | .comp a => a
  | _ => 0

/-- The buffer read as a deleter pointer (`*(void**)value_base()`),
junk (`0`) when the buffer holds something else. -/
def BufVal.deleterRead : BufVal → Nat
  | .deleterWord d => d
  | _ => 0

/-- `polymorphic_component_container` together with its memory layout.
`self` is the address of the cell (equal to `value_base()`, the first
member), `selfDeleter` the address of the static `deleter` of the
component type, and `lst` the physical memory of the heap list most
recently owned by this cell (it survives `free_array`, so stale reads
through old element pointers still see the records). -/
structure CellState where
  self : Nat
  selfDeleter : Nat
  buf : BufVal
  addr : AddrVal
  flags : Nat
  lst : RList
deriving DecidableEq, Repr

/-- `polymorphic_container_flags::REFERENCE_BIT`. -/
def REFERENCE_BIT : Nat := 1

/-- `polymorphic_container_flags::LIST_BIT`. -/
def LIST_BIT : Nat := 2

/-- `get_flag(bit)`: `pointer & bit`. -/
def get_flag (bit : Nat) (c : CellState) : Nat := c.flags &&& bit

/-- `set_flag(bit)`: `pointer |= bit`. -/
def set_flag (bit : Nat) (c : CellState) : CellState :=
  { c with flags := c.flags ||| bit }

/-- `clear_flag(bit)`: `pointer &= (uintptr_t(-1) ^ bit)`. -/
def clear_flag (bit : Nat) (c : CellState) : CellState :=
  { c with flags := c.flags &&& (3 ^^^ bit) }

/-- `ref()`: select between `value_base()` and the masked pointer by the
REFERENCE bit (the source uses a two-entry pointer table).  Returns the
address of the designated component value. -/
def refAddr (c : CellState) : Nat :=
  if get_flag REFERENCE_BIT c ≠ 0 then c.addr.compAddr else c.self

/-- `get_list()`: select the list base from the buffer (REFERENCE set)
or the masked pointer (REFERENCE clear); reading a word that does not
hold a list base is indeterminate (`none`).  The null sentinel reads as
the empty zero-capacity list. -/
def get_list_opt (c : CellState) : Option RList :=
  if get_flag REFERENCE_BIT c ≠ 0 then
    match c.buf with
    | .listBaseWord => some c.lst
    | .nullBaseWord => some RList.nullList
    | _ => none
  else
    match c.addr with
    | .listBase => some c.lst
    | .nullBase => some RList.nullList
    | .comp _ => none

/-- `get_list()` with the indeterminate read collapsed to a junk default
(used where the source only calls it in well-shaped states). -/
def get_list (c : CellState) : RList := (get_list_opt c).getD RList.nullList

/-- `set_list(list)` with a real heap list: store its base through the
REFERENCE-selected word (`&pointer` when REFERENCE is clear — that
write also clears the low bits — or `value_base()` when set) and set
the LIST flag. -/
def set_list (c : CellState) (l : RList) : CellState :=
  if get_flag REFERENCE_BIT c ≠ 0 then
    { c with buf := BufVal.listBaseWord, flags := c.flags ||| LIST_BIT, lst := l }
  else
    { c with addr := AddrVal.listBase, flags := LIST_BIT, lst := l }

/-- `set_list(ref_list{null_list_base()})`: same store with the null
sentinel base; the dead heap memory (`lst`) is left in place. -/
def set_list_null (c : CellState) : CellState :=
  if get_flag REFERENCE_BIT c ≠ 0 then
    { c with buf := BufVal.nullBaseWord, flags := c.flags ||| LIST_BIT }
  else
    { c with addr := AddrVal.nullBase, flags := LIST_BIT }

/-- `set_single_ref(ref)`: `pointer = ref.pointer | REFERENCE_BIT`,
deleter into the buffer (all other flags are cleared). -/
def set_single_ref (c : CellState) (r : PRef) : CellState :=
  { c with addr := AddrVal.comp r.pointer, flags := REFERENCE_BIT,
           buf := BufVal.deleterWord r.deleter }

/-- `get_single_ref()`: the masked pointer and the buffer read back as a
`{pointer, deleter}` record. -/
def get_single_ref (c : CellState) : PRef :=
  ⟨c.addr.compAddr, c.buf.deleterRead⟩

/-- `replace_ref_from_list(ptr)`: `pointer = ptr | LIST_BIT | REFERENCE_BIT`. -/
def replace_ref_from_list (c : CellState) (p : Nat) : CellState :=
  { c with addr := AddrVal.comp p, flags := LIST_BIT ||| REFERENCE_BIT }

/-- `set_only_value()`: `pointer = null_list_base()` (both flags end up
clear since the sentinel is aligned). -/
def set_only_value (c : CellState) : CellState :=
  { c with addr := AddrVal.nullBase, flags := 0 }

/-- Constructor from a single reference: `layout.set_single_ref(ref)`. -/
def mk_with_ref (self selfDeleter : Nat) (r : PRef) : CellState :=
  set_single_ref ⟨self, selfDeleter, BufVal.comp, AddrVal.nullBase, 0, RList.nullList⟩ r

/-- Constructor with an in-place value: construct into the buffer, then
`layout.set_only_value()`. -/
def mk_with_value (self selfDeleter : Nat) : CellState :=
  set_only_value ⟨self, selfDeleter, BufVal.comp, AddrVal.nullBase, 0, RList.nullList⟩

/-- `create_list()`: start from the null sentinel, `reserve(4)`, push
the current single reference (or a self-reference
`{value_base(), &deleter}`), and `set_list`. -/
def create_list (c : CellState) : CellState :=
  set_list c ((RList.reserve 4 RList.nullList).1.push_back
    (if get_flag REFERENCE_BIT c ≠ 0 then get_single_ref c else ⟨c.self, c.selfDeleter⟩))

/-- `clear_list(self_ref)`: drop back to the single-reference state
(REFERENCE set) or to the value-only state (REFERENCE clear). -/
def clear_list (c : CellState) (self_ref : PRef) : CellState :=
  if get_flag REFERENCE_BIT c ≠ 0 then set_single_ref c self_ref else set_only_value c

/-- `std::swap(mem[i], mem[j])` on the physical slots. -/
def swapSlots (a : List PRef) (i j : Nat) : List PRef :=
  (a.set i (a.getD j junkRef)).set j (a.getD i junkRef)

/-- Write-through update of the heap list owned by the cell. -/
def setLst (c : CellState) (l : RList) : CellState := { c with lst := l }

/-- `delete_ref_internal(list, ptr)`: search the live records for the
first one whose pointer equals `ptr`; swap it with the last live record
and `pop_back`; if the captured size was 2, `clear_list(mem[0])` and
`pop_back` again (freeing the array), otherwise `set_list(list)`.
The swaps are write-through into the heap slots. -/
def delete_ref_internal (c : CellState) (ptr : Nat) : CellState × Bool :=
  match c.lst.live.findIdx? (fun m => m.pointer = ptr) with
  | none => (c, false)
  | some i =>
      if c.lst.size = 2 then
        ((setLst
            (clear_list
              (setLst c
                { (RList.pop_back { c.lst with arr := swapSlots c.lst.arr i (c.lst.size - 1) }) with
                    arr := swapSlots c.lst.arr i (c.lst.size - 1) })
              ((swapSlots c.lst.arr i (c.lst.size - 1)).getD 0 junkRef))
            (RList.pop_back
              (RList.pop_back { c.lst with arr := swapSlots c.lst.arr i (c.lst.size - 1) }))),
          true)
      else
        (set_list (setLst c
            (RList.pop_back { c.lst with arr := swapSlots c.lst.arr i (c.lst.size - 1) }))
          (RList.pop_back { c.lst with arr := swapSlots c.lst.arr i (c.lst.size - 1) }), true)

/-- `polymorphic_component_ref_iterator`: a list pointer and an `int`
offset.  `base` is the numeric value of the pointer, `mem` the records
it designates when it points into a reference array. -/
structure RefIter where
  base : Nat
  mem : List PRef
  offset : Int
deriving DecidableEq, Repr

/-- `operator->`: a two-entry table selected by `offset == -1`; at
offset `-1` the list pointer itself is reinterpreted as the value
address, otherwise `list[offset].pointer` is returned. -/
def iterDeref (it : RefIter) : Nat :=
  if it.offset = -1 then it.base else (it.mem.getD it.offset.toNat junkRef).pointer

/-- The addresses yielded by stepping an iterator pair with `++` and
dereferencing at every offset in `[b.offset, e.offset)`. -/
def iterSeq (b e : RefIter) : List Nat :=
  (List.range (e.offset - b.offset).toNat).map
    (fun (k : Nat) => iterDeref { b with offset := b.offset + (k : Int) })

/-- `each()` (non-const): with LIST set, iterate the heap list over
offsets `[0, size)`; otherwise a single-element range `[-1, 0)` whose
list pointer is `addressof(ref())`. -/
def each (c : CellState) : RefIter × RefIter :=
  if get_flag LIST_BIT c ≠ 0 then
    (⟨0, (get_list c).arr, 0⟩, ⟨0, (get_list c).arr, Int.ofNat (get_list c).size⟩)
  else
    (⟨refAddr c, [], -1⟩, ⟨refAddr c, [], 0⟩)

/-- `each() const`: identical except that the list check reads
`get_flag(LIST_BIT) & 2u`. -/
def each_const (c : CellState) : RefIter × RefIter :=
  if get_flag LIST_BIT c &&& 2 ≠ 0 then
    (⟨0, (get_list c).arr, 0⟩, ⟨0, (get_list c).arr, Int.ofNat (get_list c).size⟩)
  else
    (⟨refAddr c, [], -1⟩, ⟨refAddr c, [], 0⟩)

/-- The address sequence produced by `each()`. -/
def eachSeq (c : CellState) : List Nat := iterSeq (each c).1 (each c).2

/-- The address sequence produced by the const `each()`. -/
def eachSeqConst (c : CellState) : List Nat := iterSeq (each_const c).1 (each_const c).2

/-- Body shared by both branches of `add_ref`: push onto the chosen
list and store it back (`list.push_back(ref); layout.set_list(list)`). -/
def add_ref_go (c : CellState) (r : PRef) : CellState :=
  set_list c ((get_list c).push_back r)

/-- `add_ref(ref)`: get the list when LIST is set, otherwise
`create_list()`; push; `set_list`. -/
def add_ref (c : CellState) (r : PRef) : CellState :=
  if get_flag LIST_BIT c ≠ 0 then add_ref_go c r else add_ref_go (create_list c) r

/-- `delete_ref(ptr)`: with LIST set, remove through
`delete_ref_internal` and return `false`; otherwise the cell holds one
reference at most and the REFERENCE flag is returned. -/
def delete_ref (c : CellState) (ptr : Nat) : CellState × Bool :=
  if get_flag LIST_BIT c ≠ 0 then ((delete_ref_internal c ptr).1, false)
  else (c, decide (get_flag REFERENCE_BIT c ≠ 0))

/-- Body of `construct_value` after the list has been ensured: the
value is constructed into the buffer (overwriting it — the list base
was captured beforehand), REFERENCE is cleared, a self-reference is
pushed and the list stored back. -/
def construct_value_go (c : CellState) : CellState :=
  set_list (clear_flag REFERENCE_BIT { c with buf := BufVal.comp })
    ((get_list c).push_back ⟨c.self, c.selfDeleter⟩)

/-- `construct_value` (cell-local part; the trailing hierarchy fan-out
is interpreted at the registry level). -/
def construct_value (c : CellState) : CellState :=
  if get_flag LIST_BIT c ≠ 0 then construct_value_go c
  else construct_value_go (create_list c)

/-- After `destroy_value` deleted the self-reference: if a list is
still present, promote the first live record's pointer into the masked
pointer field (`replace_ref_from_list(get_list().get_list()->pointer)`). -/
def promote_first (c : CellState) : CellState :=
  if get_flag LIST_BIT c ≠ 0 then
    replace_ref_from_list c (((get_list c).arr.getD 0 junkRef).pointer)
  else c

/-- `destroy_value` (cell-local part; the leading `erase_ref` fan-out
over the transitive parents with argument `ref()` is interpreted at the
registry level).  Destroy the buffered value; with LIST set, set
REFERENCE, delete the self-reference from the list and promote a
remaining record, returning `false`; otherwise set REFERENCE and return
`true`. -/
def destroy_value (c : CellState) : CellState × Bool :=
  if get_flag LIST_BIT c ≠ 0 then
    (promote_first (delete_ref_internal (set_flag REFERENCE_BIT c) c.self).1, false)
  else (set_flag REFERENCE_BIT c, true)

/-- Modelled from the spec: a reference record's `deleter` erases the
referenced concrete value from its home storage (`erase_value`), whose
`destroy_value` fans `erase_ref` out over every transitive parent
storage; on *this* cell that cascade performs exactly one
`delete_ref(ptr)` (the storage releases the cell when it reports
empty — the released bytes stay in place, which the model keeps as the
unchanged state).  The storage layer itself is not part of the
sources. -/
def cascade_delete (c : CellState) (p : Nat) : CellState := (delete_ref c p).1

/-- The backwards loop of `destroy_all_refs`: for `i = count-1 … 0`,
read `mem[i]` from the (possibly already freed) heap slots and invoke
the deleter unless the record points at this cell's own value. -/
def darLoop (c : CellState) : Nat → CellState
  | 0 => c
  | i + 1 =>
      darLoop
        (if (c.lst.arr.getD i junkRef).pointer ≠ c.self then
          cascade_delete c (c.lst.arr.getD i junkRef).pointer
        else c) i

/-- The capacity word read by the assertion
`layout.get_list().get_capacity() == 0`: `none` when the selected word
does not hold a list base (an indeterminate read). -/
def list_capacity_read (c : CellState) : Option Nat :=
  (get_list_opt c).map RList.cap

/-- Final state of `destroy_all_refs`: run the loop, then store the
null sentinel and clear LIST; with only a single reference, invoke its
deleter; with only a value, do nothing. -/
def destroy_all_refs_end (c : CellState) : CellState :=
  if get_flag LIST_BIT c ≠ 0 then
    clear_flag LIST_BIT (set_list_null (darLoop c (get_list c).size))
  else if get_flag REFERENCE_BIT c ≠ 0 then
    cascade_delete c (get_single_ref c).pointer
  else c

/-- Return value of `destroy_all_refs`: the REFERENCE flag read at the
end (`true` iff the cell held no owned value). -/
def destroy_all_refs_ret (c : CellState) : Bool :=
  decide (get_flag REFERENCE_BIT (destroy_all_refs_end c) ≠ 0)

/-- The value compared with `0` by the assertion placed between the
loop and the final cleanup of `destroy_all_refs` (only executed in the
LIST branch). -/
def destroy_all_refs_assert_read (c : CellState) : Option (Option Nat) :=
  if get_flag LIST_BIT c ≠ 0 then some (list_capacity_read (darLoop c (get_list c).size))
  else none

/-! ## Helper views of a cell -/

/-- The live records of the cell's heap list (physical slots up to the
in-band size). -/
def cellLive (c : CellState) : List PRef := c.lst.live

/-- The pointers of the live records. -/
def livePtrs (c : CellState) : List Nat := c.lst.live.map PRef.pointer

/-- How many references the cell still holds: the live list size with
LIST set, one with only the REFERENCE flag and a designated component,
zero otherwise (a cell whose masked pointer is the null sentinel holds
nothing). -/
def live_ref_count (c : CellState) : Nat :=
  if get_flag LIST_BIT c ≠ 0 then c.lst.size
  else if get_flag REFERENCE_BIT c ≠ 0 then (if c.addr.isComp then 1 else 0)
  else 0

theorem each_const_eq_each (c : CellState) : each_const c = each c := by
  unfold each_const each
  have h : get_flag LIST_BIT c &&& 2 = get_flag LIST_BIT c := by
    unfold get_flag LIST_BIT
    rw [Nat.and_assoc]
    norm_num
  rw [h]

/-- C8: the const overload of `each()`, whose list check is
`get_flag(LIST_BIT) & 2u`, yields exactly the same address sequence as
the non-const overload on every cell state: `get_flag` returns
`pointer & bit` (not a normalised boolean), so masking its result with
`2u` again is the identity and the check never reads zero while the
LIST flag is set. -/
theorem each_const_agrees (c : CellState) :
    eachSeqConst c = eachSeq c ∧
    (get_flag LIST_BIT c ≠ 0 → get_flag LIST_BIT c &&& 2 ≠ 0) := by
  constructor
  · unfold eachSeqConst eachSeq
    rw [each_const_eq_each]
  · intro h
    unfold get_flag LIST_BIT at h ⊢
    rw [Nat.and_assoc]
    norm_num
    exact h

/-- C3 (evaluation at the failing input): constructing a cell with a
single foreign reference to `8`, adding references `12` and `16`
(reaching the reference+list state whose masked pointer is `8`), and
then deleting reference `8` — the erasure cascade of value `8` — leaves
the LIST flag set with the two-element list `{16, 12}` while the
reference directly reachable from the cell (the masked pointer read by
`ref()`) is still the deleted `8`: the documented invariant that the
directly reachable reference also occurs in the list is violated, and
`ref()` now dangles. -/
theorem delete_ref_breaks_direct_ref_invariant :
    get_flag LIST_BIT
        (delete_ref (add_ref (add_ref (mk_with_ref 4 100 ⟨8, 201⟩) ⟨12, 202⟩) ⟨16, 203⟩) 8).1 ≠ 0 ∧
    2 ≤ (cellLive
        (delete_ref (add_ref (add_ref (mk_with_ref 4 100 ⟨8, 201⟩) ⟨12, 202⟩) ⟨16, 203⟩) 8).1).length ∧
    refAddr (delete_ref (add_ref (add_ref (mk_with_ref 4 100 ⟨8, 201⟩) ⟨12, 202⟩) ⟨16, 203⟩) 8).1 = 8 ∧
    8 ∉ livePtrs (delete_ref (add_ref (add_ref (mk_with_ref 4 100 ⟨8, 201⟩) ⟨12, 202⟩) ⟨16, 203⟩) 8).1 ∧
    livePtrs (delete_ref (add_ref (add_ref (mk_with_ref 4 100 ⟨8, 201⟩) ⟨12, 202⟩) ⟨16, 203⟩) 8).1 =
      [16, 12] := by
  decide

/-- C7 (counterexample): `destroy_all_refs` on a cell with LIST set
that holds a foreign reference plus a list (REFERENCE also set, list
`{8, 12}`): the cascade collapses the cell to the single-reference
state and then empties it, so after the loop the REFERENCE-selected
word — the buffer — holds the surviving record's deleter, not a list
base, and the capacity word read by the assertion
`get_list().get_capacity() == 0` is an indeterminate read through a
function pointer (`none` in the model), not `0`. -/
theorem destroy_all_refs_assert_indeterminate :
    get_flag LIST_BIT (add_ref (mk_with_ref 4 100 ⟨8, 201⟩) ⟨12, 202⟩) ≠ 0 ∧
    destroy_all_refs_assert_read (add_ref (mk_with_ref 4 100 ⟨8, 201⟩) ⟨12, 202⟩) = some none ∧
    destroy_all_refs_assert_read (add_ref (mk_with_ref 4 100 ⟨8, 201⟩) ⟨12, 202⟩) ≠
      some (some 0) := by
  decide

theorem rangeMapGetD (l : List PRef) (n : Nat) (h : n ≤ l.length) :
    (List.range n).map (fun k => (l.getD k junkRef).pointer) = (l.take n).map PRef.pointer := by
  induction l generalizing n with
  | nil =>
    have hn : n = 0 := by simpa using h
    subst hn
    simp
  | cons x xs ih =>
    cases n with
    | zero => simp
    | succ m =>
      rw [List.range_succ_eq_map]
      simp only [List.map_cons, List.map_map, List.take_succ_cons]
      congr 1
      have := ih m (by simpa using h)
      rw [← this]
      apply List.map_congr_left
      intro k _
      rfl

/-- C6: the sequence yielded by `each()`: with LIST set it is the list
of component addresses referenced by the live records in list order;
with LIST clear it is the one-element sequence holding `ref()`, encoded
by an iterator whose starting offset is `-1` and whose dereference at
`-1` returns the list-pointer field itself (the address of the cell's
canonical value) instead of indexing into a reference array. -/
theorem each_yields_refs (c : CellState)
    (h : (get_list c).size ≤ (get_list c).arr.length) :
    (get_flag LIST_BIT c ≠ 0 → eachSeq c = (get_list c).live.map PRef.pointer) ∧
    (get_flag LIST_BIT c = 0 →
      eachSeq c = [refAddr c] ∧ (each c).1.offset = -1 ∧
      iterDeref (each c).1 = (each c).1.base ∧ (each c).1.base = refAddr c) := by
  constructor
  · intro hl
    have hE : each c = (⟨0, (get_list c).arr, 0⟩, ⟨0, (get_list c).arr, Int.ofNat (get_list c).size⟩) := by
      unfold each
      rw [if_pos hl]
    unfold eachSeq
    rw [hE]
    unfold iterSeq
    simp only [Int.sub_zero, Int.toNat_ofNat]
    have hmap : ∀ k ∈ List.range (get_list c).size,
        iterDeref ⟨0, (get_list c).arr, 0 + (k : Int)⟩ =
          ((get_list c).arr.getD k junkRef).pointer := by
      intro k _
      unfold iterDeref
      rw [if_neg (show ¬((0 : Int) + (k : Int) = -1) by omega)]
      simp
    unfold RList.live
    have hn : (Int.ofNat (get_list c).size).toNat = (get_list c).size := rfl
    rw [hn, List.map_congr_left hmap]
    exact rangeMapGetD _ _ h
  · intro h0
    have hE : each c = (⟨refAddr c, [], -1⟩, ⟨refAddr c, [], 0⟩) := by
      unfold each
      rw [if_neg (fun hne => hne h0)]
    refine ⟨?_, by rw [hE], ?_, by rw [hE]⟩
    · unfold eachSeq
      rw [hE]
      unfold iterSeq iterDeref
      norm_num
      simp [List.range_succ]
    · rw [hE]
      unfold iterDeref
      norm_num

/-- C6 witness: a value-plus-list cell yields the addresses of the two
live records in order. -/
theorem each_yields_refs_witness :
    ((get_list (add_ref (mk_with_value 4 100) ⟨8, 201⟩)).size ≤
      (get_list (add_ref (mk_with_value 4 100) ⟨8, 201⟩)).arr.length) ∧
    ((get_flag LIST_BIT (add_ref (mk_with_value 4 100) ⟨8, 201⟩) ≠ 0 →
      eachSeq (add_ref (mk_with_value 4 100) ⟨8, 201⟩) =
        (get_list (add_ref (mk_with_value 4 100) ⟨8, 201⟩)).live.map PRef.pointer) ∧
    (get_flag LIST_BIT (add_ref (mk_with_value 4 100) ⟨8, 201⟩) = 0 →
      eachSeq (add_ref (mk_with_value 4 100) ⟨8, 201⟩) =
          [refAddr (add_ref (mk_with_value 4 100) ⟨8, 201⟩)] ∧
        (each (add_ref (mk_with_value 4 100) ⟨8, 201⟩)).1.offset = -1 ∧
        iterDeref (each (add_ref (mk_with_value 4 100) ⟨8, 201⟩)).1 =
          (each (add_ref (mk_with_value 4 100) ⟨8, 201⟩)).1.base ∧
        (each (add_ref (mk_with_value 4 100) ⟨8, 201⟩)).1.base =
          refAddr (add_ref (mk_with_value 4 100) ⟨8, 201⟩))) :=
  ⟨by decide, each_yields_refs (add_ref (mk_with_value 4 100) ⟨8, 201⟩) (by decide)⟩

/-! ## List lemmas for swap-and-pop removal -/

theorem listSetGetDSelf {α : Type} (a : List α) (i : Nat) (d : α) (h : i < a.length) :
    a.set i (a.getD i d) = a := by
  induction a generalizing i with
  | nil => rfl
  | cons x xs ih =>
    cases i with
    | zero => rfl
    | succ m =>
      simp only [List.getD_cons_succ, List.set_cons_succ]
      rw [ih m (by simpa using h)]

theorem takeSetHigh {α : Type} (a : List α) (j : Nat) (x : α) (n : Nat) (h : n ≤ j) :
    (a.set j x).take n = a.take n := by
  induction a generalizing j n with
  | nil => rfl
  | cons y ys ih =>
    cases j with
    | zero =>
      have hn : n = 0 := Nat.le_zero.mp h
      subst hn
      rfl
    | succ m =>
      cases n with
      | zero => rfl
      | succ k =>
        simp only [List.set_cons_succ, List.take_succ_cons]
        rw [ih m k (by omega)]

theorem takeSetInside {α : Type} (a : List α) (i : Nat) (x : α) (n : Nat) (h : i < n) :
    (a.set i x).take n = (a.take n).set i x := by
  induction a generalizing i n with
  | nil => simp
  | cons y ys ih =>
    cases i with
    | zero =>
      cases n with
      | zero => omega
      | succ k => rfl
    | succ m =>
      cases n with
      | zero => omega
      | succ k =>
        simp only [List.set_cons_succ, List.take_succ_cons]
        rw [ih m k (by omega)]

theorem setPermEraseIdxAppend {α : Type} (m : List α) (i : Nat) (x : α) (h : i < m.length) :
    (m.set i x).Perm (m.eraseIdx i ++ [x]) := by
  induction m generalizing i with
  | nil => simp at h
  | cons y ys ih =>
    cases i with
    | zero =>
      simp only [List.set_cons_zero, List.eraseIdx_cons_zero]
      exact (List.perm_append_singleton x ys).symm
    | succ m =>
      simp only [List.set_cons_succ, List.eraseIdx_cons_succ, List.cons_append]
      exact List.Perm.cons y (ih m (by simpa using h))

theorem eraseIdxOfLen {α : Type} (t : List α) (n : Nat) (h : t.length = n) :
    t.eraseIdx (n - 1) = t.take (n - 1) := by
  rw [List.eraseIdx_eq_take_drop_succ]
  have hd : t.drop (n - 1 + 1) = [] := by
    apply List.drop_eq_nil_of_le
    omega
  rw [hd, List.append_nil]

/-- The live records after the swap-and-pop of `delete_ref_internal`
are a permutation of the old live records with the record at the found
index removed. -/
theorem swap_pop_live_perm (a : List PRef) (n i : Nat) (hi : i < n) (hn : n ≤ a.length) :
    ((swapSlots a i (n - 1)).take (n - 1)).Perm ((a.take n).eraseIdx i) := by
  rcases Nat.lt_or_ge i (n - 1) with hlt | hge
  · unfold swapSlots
    rw [takeSetHigh _ _ _ _ (Nat.le_refl (n - 1))]
    rw [takeSetInside _ _ _ _ hlt]
    have htn : a.take n = a.take (n - 1) ++ [a.getD (n - 1) junkRef] := by
      have h1 : n - 1 < a.length := by omega
      have h2 : a.take n = a.take (n - 1 + 1) := by
        rw [Nat.sub_add_cancel (by omega : 1 ≤ n)]
      rw [h2, List.take_succ, List.getElem?_eq_getElem h1,
        List.getD_eq_getElem a junkRef h1]
      rfl
    rw [htn, List.eraseIdx_append_of_lt_length (by simp; omega)]
    exact setPermEraseIdxAppend (a.take (n - 1)) i (a.getD (n - 1) junkRef) (by simp; omega)
  · have hieq : i = n - 1 := by omega
    subst hieq
    unfold swapSlots
    rw [listSetGetDSelf _ _ _ (by omega), listSetGetDSelf _ _ _ (by omega)]
    have := eraseIdxOfLen (a.take n) n (by simp; omega)
    rw [this, List.take_take]
    have hmin : min (n - 1) n = n - 1 := by omega
    rw [hmin]

theorem eraseNodupIdx (l : List Nat) (i : Nat) (p : Nat) (hi : i < l.length)
    (hp : l.getD i 0 = p) (hfirst : ∀ j, j < i → l.getD j 0 ≠ p) :
    l.erase p = l.eraseIdx i := by
  induction l generalizing i with
  | nil => simp at hi
  | cons x xs ih =>
    cases i with
    | zero =>
      simp only [List.getD_cons_zero] at hp
      subst hp
      simp [List.erase_cons_head]
    | succ m =>
      have hx : x ≠ p := hfirst 0 (Nat.succ_pos m)
      rw [List.erase_cons_tail, List.eraseIdx_cons_succ]
      · rw [ih m (by simpa using hi) (by simpa using hp)
          (fun j hj => hfirst (j + 1) (by omega))]
      · simp [hx]

theorem mapEraseIdx {α β : Type} (f : α → β) (l : List α) (i : Nat) :
    (l.eraseIdx i).map f = (l.map f).eraseIdx i := by
  induction l generalizing i with
  | nil => rfl
  | cons x xs ih =>
    cases i with
    | zero => rfl
    | succ m =>
      simp only [List.eraseIdx_cons_succ, List.map_cons]
      rw [ih m]

theorem findIdxFirst (l : List PRef) (i : Nat) (ptr : Nat) (hi : i < l.length)
    (hp : (l.getD i junkRef).pointer = ptr)
    (hfirst : ∀ j, j < i → (l.getD j junkRef).pointer ≠ ptr) :
    l.findIdx? (fun m => m.pointer = ptr) = some i := by
  induction l generalizing i with
  | nil => simp at hi
  | cons x xs ih =>
    cases i with
    | zero =>
      simp only [List.getD_cons_zero] at hp
      rw [List.findIdx?_cons]
      simp [hp]
    | succ m =>
      have hx : x.pointer ≠ ptr := hfirst 0 (Nat.succ_pos m)
      rw [List.findIdx?_cons]
      have hc : decide (x.pointer = ptr) = false := by simp [hx]
      rw [hc, if_neg (by simp), List.findIdx?_succ,
        ih m (by simpa using hi) (by simpa using hp)
          (fun j hj => hfirst (j + 1) (by omega))]
      rfl

theorem memFirstIdx (l : List PRef) (p : Nat) (h : p ∈ l.map PRef.pointer) :
    ∃ i, i < l.length ∧ (l.getD i junkRef).pointer = p ∧
      ∀ j, j < i → (l.getD j junkRef).pointer ≠ p := by
  induction l with
  | nil => simp at h
  | cons x xs ih =>
    by_cases hx : x.pointer = p
    · exact ⟨0, Nat.succ_pos _, hx, fun j hj => absurd hj (Nat.not_lt_zero j)⟩
    · have hcons : p ∈ x.pointer :: xs.map PRef.pointer := by
        rw [List.map_cons] at h
        exact h
      have hmem : p ∈ xs.map PRef.pointer := by
        rcases List.mem_cons.mp hcons with h1 | h1
        · exact absurd h1.symm hx
        · exact h1
      obtain ⟨i, hi, hp, hfirst⟩ := ih hmem
      refine ⟨i + 1, by simpa using hi, by simpa using hp, ?_⟩
      intro j hj
      cases j with
      | zero => simpa using hx
      | succ m => simpa using hfirst m (by omega)

theorem listTwo {α : Type} (l : List α) (h : 2 ≤ l.length) :
    ∃ a b rest, l = a :: b :: rest := by
  cases l with
  | nil => simp at h
  | cons a tl =>
    cases tl with
    | nil => simp at h
    | cons b rest => exact ⟨a, b, rest, rfl⟩

theorem mapGetD (l : List PRef) (i : Nat) (h : i < l.length) :
    (l.map PRef.pointer).getD i 0 = (l.getD i junkRef).pointer := by
  rw [List.getD_eq_getElem _ _ (by simpa using h), List.getD_eq_getElem _ _ h]
  simp

/-- The records held by a cell, as pointers: the live list when LIST is
set, the single designated component when only REFERENCE is set, and
the owned value itself in the value-only state (standing in for the
self-record a list would carry). -/
def heldPtrs (c : CellState) : List Nat :=
  if get_flag LIST_BIT c ≠ 0 then livePtrs c
  else if get_flag REFERENCE_BIT c ≠ 0 then
    (if c.addr.isComp then [c.addr.compAddr] else [])
  else [c.self]

theorem dri_eq_big (c : CellState) (ptr : Nat) (i : Nat)
    (hfind : c.lst.live.findIdx? (fun m => m.pointer = ptr) = some i)
    (hsz : c.lst.size ≠ 2) :
    delete_ref_internal c ptr =
      (set_list
        (setLst c (RList.pop_back { c.lst with arr := swapSlots c.lst.arr i (c.lst.size - 1) }))
        (RList.pop_back { c.lst with arr := swapSlots c.lst.arr i (c.lst.size - 1) }), true) := by
  unfold delete_ref_internal
  rw [hfind]
  simp only [if_neg hsz]

theorem dri_eq_two (c : CellState) (ptr : Nat) (i : Nat)
    (hfind : c.lst.live.findIdx? (fun m => m.pointer = ptr) = some i)
    (hsz : c.lst.size = 2) :
    delete_ref_internal c ptr =
      ((setLst
          (clear_list
            (setLst c
              { (RList.pop_back { c.lst with arr := swapSlots c.lst.arr i (c.lst.size - 1) }) with
                  arr := swapSlots c.lst.arr i (c.lst.size - 1) })
            ((swapSlots c.lst.arr i (c.lst.size - 1)).getD 0 junkRef))
          (RList.pop_back
            (RList.pop_back { c.lst with arr := swapSlots c.lst.arr i (c.lst.size - 1) }))), true) := by
  unfold delete_ref_internal
  rw [hfind]
  simp only [if_pos hsz]

theorem get_flag_setLst (b : Nat) (c : CellState) (l : RList) :
    get_flag b (setLst c l) = get_flag b c := rfl

/-- `delete_ref_internal` in the collapse case (captured size 2) on a
cell whose REFERENCE flag is set: restore the surviving record as the
single reference; the array is freed (size and capacity words zero). -/
theorem dri_state_two_ref (c : CellState) (ptr : Nat) (i : Nat)
    (hfind : c.lst.live.findIdx? (fun m => m.pointer = ptr) = some i)
    (hsz : c.lst.size = 2)
    (hR : get_flag REFERENCE_BIT c ≠ 0) :
    (delete_ref_internal c ptr).1 =
      { c with
          addr := AddrVal.comp ((swapSlots c.lst.arr i 1).getD 0 junkRef).pointer,
          flags := 1,
          buf := BufVal.deleterWord ((swapSlots c.lst.arr i 1).getD 0 junkRef).deleter,
          lst := ⟨0, 0, swapSlots c.lst.arr i 1⟩ } := by
  obtain ⟨slf, sdel, buf, addr, flags, lst⟩ := c
  obtain ⟨sz, cap, arr⟩ := lst
  simp only at hsz
  subst hsz
  rw [dri_eq_two _ ptr i hfind rfl]
  unfold get_flag REFERENCE_BIT at hR
  simp only at hR
  rw [Nat.and_one_is_mod] at hR
  have hR2 : flags % 2 = 1 := by omega
  unfold setLst clear_list set_single_ref RList.pop_back RList.clear
  simp [get_flag, REFERENCE_BIT, hR2]

/-- `delete_ref_internal` in the collapse case on a cell whose
REFERENCE flag is clear (it owns a value): back to the value-only
state. -/
theorem dri_state_two_val (c : CellState) (ptr : Nat) (i : Nat)
    (hfind : c.lst.live.findIdx? (fun m => m.pointer = ptr) = some i)
    (hsz : c.lst.size = 2)
    (hR : get_flag REFERENCE_BIT c = 0) :
    (delete_ref_internal c ptr).1 =
      { c with
          addr := AddrVal.nullBase,
          flags := 0,
          lst := ⟨0, 0, swapSlots c.lst.arr i 1⟩ } := by
  obtain ⟨slf, sdel, buf, addr, flags, lst⟩ := c
  obtain ⟨sz, cap, arr⟩ := lst
  simp only at hsz
  subst hsz
  rw [dri_eq_two _ ptr i hfind rfl]
  unfold get_flag REFERENCE_BIT at hR
  simp only at hR
  rw [Nat.and_one_is_mod] at hR
  have hR2 : flags % 2 = 0 := by omega
  unfold setLst clear_list set_only_value RList.pop_back RList.clear
  simp [get_flag, REFERENCE_BIT, hR2]

/-- `delete_ref_internal` when more than two records are live and the
cell's REFERENCE flag is set: swap-and-pop, then `set_list` stores the
base through the buffer. -/
theorem dri_state_big_ref (c : CellState) (ptr : Nat) (i : Nat)
    (hfind : c.lst.live.findIdx? (fun m => m.pointer = ptr) = some i)
    (hsz : 3 ≤ c.lst.size)
    (hR : get_flag REFERENCE_BIT c ≠ 0) :
    (delete_ref_internal c ptr).1 =
      { c with
          buf := BufVal.listBaseWord,
          flags := c.flags ||| 2,
          lst := ⟨c.lst.size - 1, c.lst.cap, swapSlots c.lst.arr i (c.lst.size - 1)⟩ } := by
  obtain ⟨slf, sdel, buf, addr, flags, lst⟩ := c
  obtain ⟨sz, cap, arr⟩ := lst
  simp only at hsz hfind ⊢
  rw [dri_eq_big _ ptr i hfind (by simp; omega)]
  unfold get_flag REFERENCE_BIT at hR
  simp only at hR
  unfold set_list setLst RList.pop_back RList.clear
  simp only [get_flag, REFERENCE_BIT, LIST_BIT]
  rw [if_neg (show ¬(sz - 1 = 0) from by omega)]
  rw [if_pos hR]

/-- `delete_ref_internal` when more than two records are live and the
cell's REFERENCE flag is clear: swap-and-pop, then `set_list` stores
the base through the auxiliary pointer (rewriting both tag bits). -/
theorem dri_state_big_val (c : CellState) (ptr : Nat) (i : Nat)
    (hfind : c.lst.live.findIdx? (fun m => m.pointer = ptr) = some i)
    (hsz : 3 ≤ c.lst.size)
    (hR : get_flag REFERENCE_BIT c = 0) :
    (delete_ref_internal c ptr).1 =
      { c with
          addr := AddrVal.listBase,
          flags := 2,
          lst := ⟨c.lst.size - 1, c.lst.cap, swapSlots c.lst.arr i (c.lst.size - 1)⟩ } := by
  obtain ⟨slf, sdel, buf, addr, flags, lst⟩ := c
  obtain ⟨sz, cap, arr⟩ := lst
  simp only at hsz hfind ⊢
  rw [dri_eq_big _ ptr i hfind (by simp; omega)]
  unfold get_flag REFERENCE_BIT at hR
  simp only at hR
  unfold set_list setLst RList.pop_back RList.clear
  simp only [get_flag, REFERENCE_BIT, LIST_BIT]
  rw [if_neg (show ¬(sz - 1 = 0) from by omega)]
  rw [if_neg (show ¬(flags &&& 1 ≠ 0) from fun hne => hne hR)]
theorem or_two_and_two (x : Nat) : (x ||| 2) &&& 2 = 2 := by
  have h := Nat.and_two_pow (x ||| 2) 1
  norm_num at h
  rw [h]
  simp [Nat.testBit_or]
  exact Or.inr (by decide)

theorem or_two_and_one (x : Nat) : (x ||| 2) &&& 1 = x &&& 1 := by
  have h1 := Nat.and_two_pow (x ||| 2) 0
  have h2 := Nat.and_two_pow x 0
  norm_num at h1 h2
  rw [Nat.and_one_is_mod, Nat.and_one_is_mod, h1, h2]
  rcases Nat.mod_two_eq_zero_or_one x with hx | hx <;> simp [hx]

theorem survivor_eq (arr : List PRef) (i : Nat) (h2 : 2 ≤ arr.length) (hi : i < 2) :
    (swapSlots arr i 1).getD 0 junkRef = arr.getD (1 - i) junkRef := by
  obtain ⟨a, b, rest, harr⟩ := listTwo arr h2
  subst harr
  match i, hi with
  | 0, _ => rfl
  | 1, _ => rfl

theorem collapse_survivor (arr : List PRef) (ptr : Nat) (i : Nat) (r : PRef)
    (h2 : 2 ≤ arr.length) (hi : i < 2)
    (hp : ((arr.take 2).getD i junkRef).pointer = ptr)
    (hr : r ∈ arr.take 2) (hne : r.pointer ≠ ptr) :
    r = arr.getD (1 - i) junkRef := by
  obtain ⟨a, b, rest, harr⟩ := listTwo arr h2
  subst harr
  have hr2 : r = a ∨ r = b := by
    simpa using hr
  match i, hi with
  | 0, _ =>
    rcases hr2 with h | h
    · subst h
      exact absurd hp hne
    · subst h
      rfl
  | 1, _ =>
    rcases hr2 with h | h
    · subst h
      rfl
    · subst h
      exact absurd hp hne

/-- C5: `delete_ref(ptr)`.  With LIST set it removes the unique live
record whose pointer equals `ptr` by swap-and-pop (the held records
afterwards are the held records before minus `ptr`), collapses the
list into the cell when the size falls to one (restoring the surviving
record as the single reference, or the value-only state), and always
returns `false`; with LIST clear, `ptr` is the cell's single canonical
reference, the state is untouched and the call returns the REFERENCE
flag — so the call returns `true` exactly when the cell was a single
foreign reference holding only `ptr` (REF=1, LIST=0) and is now empty,
and `false` when REF=0. -/
theorem delete_ref_spec (c : CellState) (ptr : Nat)
    (hptr : ptr ≠ c.self)
    (hlist : get_flag LIST_BIT c ≠ 0 →
      2 ≤ c.lst.size ∧ c.lst.size ≤ c.lst.arr.length ∧
      (livePtrs c).Nodup ∧ ptr ∈ livePtrs c)
    (hself : get_flag LIST_BIT c ≠ 0 → get_flag REFERENCE_BIT c = 0 →
      c.self ∈ livePtrs c)
    (hnolist : get_flag LIST_BIT c = 0 → refAddr c = ptr) :
    ((delete_ref c ptr).2 = true ↔
      (get_flag LIST_BIT c = 0 ∧ get_flag REFERENCE_BIT c ≠ 0)) ∧
    (get_flag LIST_BIT c = 0 → (delete_ref c ptr).1 = c) ∧
    (get_flag LIST_BIT c ≠ 0 →
      (delete_ref c ptr).2 = false ∧
      (heldPtrs (delete_ref c ptr).1).Perm ((heldPtrs c).erase ptr) ∧
      (3 ≤ c.lst.size →
        get_flag LIST_BIT (delete_ref c ptr).1 ≠ 0 ∧
        (delete_ref c ptr).1.lst.size = c.lst.size - 1) ∧
      (c.lst.size = 2 →
        get_flag LIST_BIT (delete_ref c ptr).1 = 0 ∧
        (∀ r ∈ cellLive c, r.pointer ≠ ptr →
          (get_flag REFERENCE_BIT c ≠ 0 →
            get_single_ref (delete_ref c ptr).1 = r ∧
            refAddr (delete_ref c ptr).1 = r.pointer) ∧
          (get_flag REFERENCE_BIT c = 0 →
            (delete_ref c ptr).1.flags = 0 ∧
            (delete_ref c ptr).1.addr = AddrVal.nullBase ∧
            refAddr (delete_ref c ptr).1 = c.self)))) := by
  by_cases hL : get_flag LIST_BIT c = 0
  · have hd : delete_ref c ptr = (c, decide (get_flag REFERENCE_BIT c ≠ 0)) := by
      unfold delete_ref
      rw [if_neg (fun hne => hne hL)]
    refine ⟨?_, fun _ => by rw [hd], fun hne => absurd hL hne⟩
    rw [hd]
    simp [hL]
  · obtain ⟨h2, hlen, hnd, hmem⟩ := hlist hL
    have hlivelen : c.lst.live.length = c.lst.size := by
      unfold RList.live
      simp [List.length_take, Nat.min_eq_left hlen]
    obtain ⟨i, hi, hp, hfirst⟩ := memFirstIdx c.lst.live ptr hmem
    have hfind := findIdxFirst c.lst.live i ptr hi hp hfirst
    have hisz : i < c.lst.size := by omega
    have hdR : delete_ref c ptr = ((delete_ref_internal c ptr).1, false) := by
      unfold delete_ref
      rw [if_pos hL]
    have hptrGetD : (livePtrs c).getD i 0 = ptr := by
      unfold livePtrs
      rw [mapGetD _ _ hi]
      exact hp
    have hfirstMap : ∀ j, j < i → (livePtrs c).getD j 0 ≠ ptr := by
      intro j hj
      unfold livePtrs
      rw [mapGetD _ _ (by omega)]
      exact hfirst j hj
    have hilen2 : i < (livePtrs c).length := by
      unfold livePtrs
      simpa using hi
    have herase : (livePtrs c).erase ptr = (livePtrs c).eraseIdx i :=
      eraseNodupIdx (livePtrs c) i ptr hilen2 hptrGetD hfirstMap
    have hheld : heldPtrs c = livePtrs c := by
      unfold heldPtrs
      rw [if_pos hL]
    refine ⟨by rw [hdR]; simp [hL], fun h0 => absurd h0 hL, fun _ => ?_⟩
    rcases Nat.lt_or_ge c.lst.size 3 with hsz3 | hsz3
    · -- collapse case: captured size is 2
      have hsz : c.lst.size = 2 := by omega
      obtain ⟨a, b, rest, harr⟩ := listTwo c.lst.arr (by omega)
      have hlive2 : c.lst.live = [a, b] := by
        unfold RList.live
        rw [harr, hsz]
        rfl
      have hlp2 : livePtrs c = [a.pointer, b.pointer] := by
        unfold livePtrs
        rw [hlive2]
        rfl
      have hi2 : i < 2 := by omega
      have hsurv : (swapSlots c.lst.arr i 1).getD 0 junkRef = c.lst.arr.getD (1 - i) junkRef :=
        survivor_eq c.lst.arr i (by omega) hi2
      have hsurvDef : c.lst.arr.getD (1 - i) junkRef = (if i = 0 then b else a) := by
        rw [harr]
        match i, hi2 with
        | 0, _ => rfl
        | 1, _ => rfl
      have hother : ((if i = 0 then b else a) : PRef).pointer ≠ ptr := by
        have hnd2 := hnd
        rw [hlp2] at hnd2
        have hab : a.pointer ≠ b.pointer := by simpa using hnd2
        rw [hlive2] at hp
        match i, hi2 with
        | 0, _ =>
          simp only [if_pos rfl]
          simp only [List.getD_cons_zero] at hp
          intro hbp
          exact hab (hp.trans hbp.symm)
        | 1, _ =>
          simp only [if_neg (by omega : ¬(1 = 0))]
          simp only [List.getD_cons_succ, List.getD_cons_zero] at hp
          intro hap
          exact hab (hap.trans hp.symm)
      have heraseIdx2 : (livePtrs c).eraseIdx i = [((if i = 0 then b else a) : PRef).pointer] := by
        rw [hlp2]
        match i, hi2 with
        | 0, _ => rfl
        | 1, _ => rfl
      by_cases hR : get_flag REFERENCE_BIT c = 0
      · have hst := dri_state_two_val c ptr i hfind hsz hR
        have hselfmem := hself hL hR
        have hselfother : ((if i = 0 then b else a) : PRef).pointer = c.self := by
          rw [hlp2] at hselfmem
          rw [hlive2] at hp
          match i, hi2 with
          | 0, _ =>
            simp only [if_pos rfl]
            simp only [List.getD_cons_zero] at hp
            rcases List.mem_cons.mp hselfmem with h | h
            · exact absurd (h.trans hp) (fun hx => hptr hx.symm)
            · have hb : c.self = b.pointer := by simpa using h
              exact hb.symm
          | 1, _ =>
            simp only [if_neg (by omega : ¬(1 = 0))]
            simp only [List.getD_cons_succ, List.getD_cons_zero] at hp
            rcases List.mem_cons.mp hselfmem with h | h
            · exact h.symm
            · have hb : c.self = b.pointer := by simpa using h
              exact absurd (hb.trans hp).symm hptr
        refine ⟨by rw [hdR], ?_, fun h3 => by omega, fun _ => ?_⟩
        · rw [hdR]
          simp only []
          rw [hst, hheld, herase, heraseIdx2]
          unfold heldPtrs get_flag LIST_BIT REFERENCE_BIT
          simp [hselfother]
        · refine ⟨by rw [hdR]; simp only []; rw [hst]; simp [get_flag, LIST_BIT], ?_⟩
          intro r hr hrne
          constructor
          · intro hRne
            exact absurd hR hRne
          · intro _
            rw [hdR]
            simp only []
            rw [hst]
            exact ⟨rfl, rfl, by simp [refAddr, get_flag, REFERENCE_BIT]⟩
      · have hst := dri_state_two_ref c ptr i hfind hsz (by exact hR)
        refine ⟨by rw [hdR], ?_, fun h3 => by omega, fun _ => ?_⟩
        · rw [hdR]
          simp only []
          rw [hst, hheld, herase, heraseIdx2, hsurv, hsurvDef]
          unfold heldPtrs get_flag LIST_BIT REFERENCE_BIT AddrVal.isComp AddrVal.compAddr
          simp
        · refine ⟨by rw [hdR]; simp only []; rw [hst]; simp [get_flag, LIST_BIT], ?_⟩
          intro r hr hrne
          have hrs : r = c.lst.arr.getD (1 - i) junkRef :=
            collapse_survivor c.lst.arr ptr i r (by omega) hi2
              (by rw [show c.lst.arr.take 2 = c.lst.live from by unfold RList.live; rw [hsz]]
                  exact hp)
              (by rw [show c.lst.arr.take 2 = c.lst.live from by unfold RList.live; rw [hsz]]
                  exact hr)
              hrne
          constructor
          · intro _
            rw [hdR]
            simp only []
            rw [hst, hsurv, ← hrs]
            constructor
            · unfold get_single_ref AddrVal.compAddr BufVal.deleterRead
              rfl
            · unfold refAddr get_flag REFERENCE_BIT AddrVal.compAddr
              simp
          · intro hR0
            exact absurd hR0 hR
    · -- big case: more than two live records
      have hperm0 := swap_pop_live_perm c.lst.arr c.lst.size i hisz hlen
      by_cases hR : get_flag REFERENCE_BIT c = 0
      · have hst := dri_state_big_val c ptr i hfind hsz3 hR
        refine ⟨by rw [hdR], ?_, fun _ => ?_, fun h0 => by omega⟩
        · rw [hdR]
          simp only []
          rw [hst, hheld, herase]
          unfold heldPtrs get_flag LIST_BIT
          simp only []
          rw [if_pos (by norm_num)]
          unfold livePtrs RList.live
          simp only []
          have := hperm0.map PRef.pointer
          rw [mapEraseIdx] at this
          exact this
        · rw [hdR]
          simp only []
          rw [hst]
          exact ⟨by unfold get_flag LIST_BIT; norm_num, rfl⟩
      · have hst := dri_state_big_ref c ptr i hfind hsz3 (by exact hR)
        refine ⟨by rw [hdR], ?_, fun _ => ?_, fun h0 => by omega⟩
        · rw [hdR]
          simp only []
          rw [hst, hheld, herase]
          unfold heldPtrs get_flag LIST_BIT
          simp only []
          rw [if_pos (by rw [or_two_and_two]; norm_num)]
          unfold livePtrs RList.live
          simp only []
          have := hperm0.map PRef.pointer
          rw [mapEraseIdx] at this
          exact this
        · rw [hdR]
          simp only []
          rw [hst]
          refine ⟨?_, rfl⟩
          unfold get_flag LIST_BIT
          simp only []
          rw [or_two_and_two]
          norm_num

/-- Concrete value-plus-list cell used by the C5 witness. -/
def WC5 : CellState := add_ref (mk_with_value 4 100) ⟨8, 201⟩

/-- C5 witness: deleting reference `8` from a value-plus-list cell with
live records `{4 (self), 8}` collapses the list back into the
value-only state and returns `false`. -/
theorem delete_ref_spec_witness :
    (((delete_ref WC5 8).2 = true ↔
      (get_flag LIST_BIT WC5 = 0 ∧ get_flag REFERENCE_BIT WC5 ≠ 0)) ∧
    (get_flag LIST_BIT WC5 = 0 → (delete_ref WC5 8).1 = WC5) ∧
    (get_flag LIST_BIT WC5 ≠ 0 →
      (delete_ref WC5 8).2 = false ∧
      (heldPtrs (delete_ref WC5 8).1).Perm ((heldPtrs WC5).erase 8) ∧
      (3 ≤ WC5.lst.size →
        get_flag LIST_BIT (delete_ref WC5 8).1 ≠ 0 ∧
        (delete_ref WC5 8).1.lst.size = WC5.lst.size - 1) ∧
      (WC5.lst.size = 2 →
        get_flag LIST_BIT (delete_ref WC5 8).1 = 0 ∧
        (∀ r ∈ cellLive WC5, r.pointer ≠ 8 →
          (get_flag REFERENCE_BIT WC5 ≠ 0 →
            get_single_ref (delete_ref WC5 8).1 = r ∧
            refAddr (delete_ref WC5 8).1 = r.pointer) ∧
          (get_flag REFERENCE_BIT WC5 = 0 →
            (delete_ref WC5 8).1.flags = 0 ∧
            (delete_ref WC5 8).1.addr = AddrVal.nullBase ∧
            refAddr (delete_ref WC5 8).1 = WC5.self))))) :=
  delete_ref_spec WC5 8 (by decide) (fun _ => by decide) (fun _ _ => by decide)
    (fun h => absurd h (by decide))

theorem or_one_and_one (x : Nat) : (x ||| 1) &&& 1 = 1 := by
  have h := Nat.and_two_pow (x ||| 1) 0
  rw [pow_zero, mul_one] at h
  rw [h]
  simp [Nat.testBit_or]

theorem flags_eq_zero (x : Nat) (h3 : x ≤ 3) (h1 : x &&& 1 = 0) (h2 : x &&& 2 = 0) :
    x = 0 := by
  interval_cases x <;> simp_all

theorem promote_first_of_list (c : CellState)
    (hl : get_flag LIST_BIT c ≠ 0) (hr : get_flag REFERENCE_BIT c ≠ 0)
    (hb : c.buf = BufVal.listBaseWord) :
    promote_first c =
      { c with addr := AddrVal.comp ((c.lst.arr.getD 0 junkRef).pointer),
               flags := LIST_BIT ||| REFERENCE_BIT } := by
  unfold promote_first
  rw [if_pos hl]
  unfold replace_ref_from_list get_list get_list_opt
  rw [if_pos hr, hb]
  rfl

theorem promote_first_of_nolist (c : CellState) (hl : get_flag LIST_BIT c = 0) :
    promote_first c = c := by
  unfold promote_first
  rw [if_neg (fun hne => hne hl)]

/-- C4: `destroy_value` on a cell holding a value (REF=0).  The value
is destroyed and REFERENCE is set (the registry wrapper `erase_value`
first fans `erase_ref(ref())` out over the transitive parent storages;
see `regErase_value`).  With LIST set, the self-reference is deleted
from the list: when exactly one record remains the list collapses into
the single-reference state, and when a list still remains the first
live record's pointer is promoted into the masked pointer field.  The
call returns `true` iff no references remain in the cell. -/
theorem destroy_value_spec (c : CellState)
    (href : get_flag REFERENCE_BIT c = 0)
    (hflags : c.flags ≤ 3)
    (hv : c.flags = 0 → c.addr = AddrVal.nullBase)
    (hlist : get_flag LIST_BIT c ≠ 0 →
      2 ≤ c.lst.size ∧ c.lst.size ≤ c.lst.arr.length ∧
      (livePtrs c).Nodup ∧ c.self ∈ livePtrs c) :
    get_flag REFERENCE_BIT (destroy_value c).1 ≠ 0 ∧
    ((destroy_value c).2 = decide (get_flag LIST_BIT c = 0)) ∧
    ((destroy_value c).2 = true ↔ live_ref_count (destroy_value c).1 = 0) ∧
    (get_flag LIST_BIT c = 0 → (destroy_value c).1 = set_flag REFERENCE_BIT c) ∧
    (get_flag LIST_BIT c ≠ 0 →
      c.self ∉ heldPtrs (destroy_value c).1 ∧
      (heldPtrs (destroy_value c).1).Perm ((heldPtrs c).erase c.self) ∧
      (c.lst.size = 2 →
        get_flag LIST_BIT (destroy_value c).1 = 0 ∧
        ∀ r ∈ cellLive c, r.pointer ≠ c.self →
          get_single_ref (destroy_value c).1 = r ∧
          refAddr (destroy_value c).1 = r.pointer) ∧
      (3 ≤ c.lst.size →
        get_flag LIST_BIT (destroy_value c).1 ≠ 0 ∧
        (destroy_value c).1.lst.size = c.lst.size - 1 ∧
        refAddr (destroy_value c).1 =
          ((destroy_value c).1.lst.arr.getD 0 junkRef).pointer)) := by
  have hRc1 : get_flag REFERENCE_BIT (set_flag REFERENCE_BIT c) ≠ 0 := by
    show (c.flags ||| 1) &&& 1 ≠ 0
    rw [or_one_and_one]
    norm_num
  by_cases hL : get_flag LIST_BIT c = 0
  · have hd : destroy_value c = (set_flag REFERENCE_BIT c, true) := by
      unfold destroy_value
      rw [if_neg (fun hne => hne hL)]
    have hf0 : c.flags = 0 := flags_eq_zero c.flags hflags href hL
    refine ⟨by rw [hd]; exact hRc1, by rw [hd]; simp [hL], ?_,
      fun _ => by rw [hd], fun hne => absurd hL hne⟩
    rw [hd]
    simp only [true_iff]
    unfold live_ref_count get_flag set_flag LIST_BIT REFERENCE_BIT
    simp only [hf0]
    rw [hv hf0]
    norm_num [AddrVal.isComp]
  · obtain ⟨h2, hlen, hnd, hmem⟩ := hlist hL
    have hlivelen : c.lst.live.length = c.lst.size := by
      unfold RList.live
      simp [List.length_take, Nat.min_eq_left hlen]
    obtain ⟨i, hi, hp, hfirst⟩ := memFirstIdx c.lst.live c.self hmem
    have hfind := findIdxFirst c.lst.live i c.self hi hp hfirst
    have hisz : i < c.lst.size := by omega
    have hdD : destroy_value c =
        (promote_first (delete_ref_internal (set_flag REFERENCE_BIT c) c.self).1, false) := by
      unfold destroy_value
      rw [if_pos hL]
    have hptrGetD : (livePtrs c).getD i 0 = c.self := by
      unfold livePtrs
      rw [mapGetD _ _ hi]
      exact hp
    have hfirstMap : ∀ j, j < i → (livePtrs c).getD j 0 ≠ c.self := by
      intro j hj
      unfold livePtrs
      rw [mapGetD _ _ (by omega)]
      exact hfirst j hj
    have hilen2 : i < (livePtrs c).length := by
      unfold livePtrs
      simpa using hi
    have herase : (livePtrs c).erase c.self = (livePtrs c).eraseIdx i :=
      eraseNodupIdx (livePtrs c) i c.self hilen2 hptrGetD hfirstMap
    have hheld : heldPtrs c = livePtrs c := by
      unfold heldPtrs
      rw [if_pos hL]
    rcases Nat.lt_or_ge c.lst.size 3 with hsz3 | hsz3
    · -- collapse: the list had exactly the self-record and one foreign record
      have hsz : c.lst.size = 2 := by omega
      obtain ⟨a, b, rest, harr⟩ := listTwo c.lst.arr (by omega)
      have hlive2 : c.lst.live = [a, b] := by
        unfold RList.live
        rw [harr, hsz]
        rfl
      have hlp2 : livePtrs c = [a.pointer, b.pointer] := by
        unfold livePtrs
        rw [hlive2]
        rfl
      have hi2 : i < 2 := by omega
      have hsurv : (swapSlots c.lst.arr i 1).getD 0 junkRef = c.lst.arr.getD (1 - i) junkRef :=
        survivor_eq c.lst.arr i (by omega) hi2
      have hsurvDef : c.lst.arr.getD (1 - i) junkRef = (if i = 0 then b else a) := by
        rw [harr]
        match i, hi2 with
        | 0, _ => rfl
        | 1, _ => rfl
      have hother : ((if i = 0 then b else a) : PRef).pointer ≠ c.self := by
        have hnd2 := hnd
        rw [hlp2] at hnd2
        have hab : a.pointer ≠ b.pointer := by simpa using hnd2
        rw [hlive2] at hp
        match i, hi2 with
        | 0, _ =>
          simp only [if_pos rfl]
          simp only [List.getD_cons_zero] at hp
          intro hbp
          exact hab (hp.trans hbp.symm)
        | 1, _ =>
          simp only [if_neg (by omega : ¬(1 = 0))]
          simp only [List.getD_cons_succ, List.getD_cons_zero] at hp
          intro hap
          exact hab (hap.trans hp.symm)
      have heraseIdx2 : (livePtrs c).eraseIdx i = [((if i = 0 then b else a) : PRef).pointer] := by
        rw [hlp2]
        match i, hi2 with
        | 0, _ => rfl
        | 1, _ => rfl
      have hst := dri_state_two_ref (set_flag REFERENCE_BIT c) c.self i hfind hsz hRc1
      have hpn := promote_first_of_nolist
        ((delete_ref_internal (set_flag REFERENCE_BIT c) c.self).1)
        (by rw [hst]; show (1 : Nat) &&& 2 = 0; decide)
      refine ⟨?_, by rw [hdD]; simp [hL], ?_, fun h0 => absurd h0 hL, fun _ => ?_⟩
      · rw [hdD]
        simp only []
        rw [hpn, hst]
        show (1 : Nat) &&& 1 ≠ 0
        decide
      · rw [hdD]
        simp only []
        rw [hpn, hst]
        unfold live_ref_count get_flag LIST_BIT REFERENCE_BIT AddrVal.isComp
        simp [hL]
      · have hs2 : (swapSlots (set_flag REFERENCE_BIT c).lst.arr i 1).getD 0 junkRef =
            (if i = 0 then b else a) := hsurv.trans hsurvDef
        refine ⟨?_, ?_, fun _ => ⟨?_, ?_⟩, fun h3 => by omega⟩
        · rw [hdD]
          simp only []
          rw [hpn, hst, hs2]
          unfold heldPtrs get_flag set_flag LIST_BIT REFERENCE_BIT AddrVal.isComp AddrVal.compAddr
          simp
          exact fun h => hother h.symm
        · rw [hdD]
          simp only []
          rw [hpn, hst, hs2, hheld, herase, heraseIdx2]
          unfold heldPtrs get_flag set_flag LIST_BIT REFERENCE_BIT AddrVal.isComp AddrVal.compAddr
          simp
        · rw [hdD]
          simp only []
          rw [hpn, hst]
          show (1 : Nat) &&& 2 = 0
          decide
        · intro r hr hrne
          have hrs : r = c.lst.arr.getD (1 - i) junkRef :=
            collapse_survivor c.lst.arr c.self i r (by omega) hi2
              (by rw [show c.lst.arr.take 2 = c.lst.live from by unfold RList.live; rw [hsz]]
                  exact hp)
              (by rw [show c.lst.arr.take 2 = c.lst.live from by unfold RList.live; rw [hsz]]
                  exact hr)
              hrne
          rw [hdD]
          simp only []
          rw [hpn, hst, hs2, hrs, hsurvDef]
          constructor
          · unfold get_single_ref AddrVal.compAddr BufVal.deleterRead
            rfl
          · unfold refAddr get_flag REFERENCE_BIT AddrVal.compAddr
            simp
    · -- list survives: promote the first remaining record
      have hperm0 := swap_pop_live_perm c.lst.arr c.lst.size i hisz hlen
      have hst := dri_state_big_ref (set_flag REFERENCE_BIT c) c.self i hfind hsz3 hRc1
      have hpl := promote_first_of_list
        ((delete_ref_internal (set_flag REFERENCE_BIT c) c.self).1)
        (by rw [hst]
            show ((c.flags ||| 1) ||| 2) &&& 2 ≠ 0
            rw [or_two_and_two]
            norm_num)
        (by rw [hst]
            show ((c.flags ||| 1) ||| 2) &&& 1 ≠ 0
            rw [or_two_and_one, or_one_and_one]
            norm_num)
        (by rw [hst])
      have hliveEq :
          (promote_first (delete_ref_internal (set_flag REFERENCE_BIT c) c.self).1).lst =
            ⟨c.lst.size - 1, c.lst.cap, swapSlots c.lst.arr i (c.lst.size - 1)⟩ := by
        rw [hpl, hst]
        rfl
      have hflagsEq :
          (promote_first (delete_ref_internal (set_flag REFERENCE_BIT c) c.self).1).flags =
            3 := by
        rw [hpl]
        rfl
      have hlistSet :
          get_flag LIST_BIT
            (promote_first (delete_ref_internal (set_flag REFERENCE_BIT c) c.self).1) ≠ 0 := by
        unfold get_flag LIST_BIT
        rw [hflagsEq]
        decide
      have hpermFinal :
          (heldPtrs (promote_first
            (delete_ref_internal (set_flag REFERENCE_BIT c) c.self).1)).Perm
            ((heldPtrs c).erase c.self) := by
        rw [hheld, herase]
        unfold heldPtrs
        rw [if_pos hlistSet]
        unfold livePtrs RList.live
        rw [hliveEq]
        simp only []
        have hmapped := hperm0.map PRef.pointer
        rw [mapEraseIdx] at hmapped
        exact hmapped
      refine ⟨?_, by rw [hdD]; simp [hL], ?_, fun h0 => absurd h0 hL, fun _ => ?_⟩
      · rw [hdD]
        simp only []
        unfold get_flag
        rw [hflagsEq]
        decide
      · rw [hdD]
        simp only []
        unfold live_ref_count
        rw [if_pos hlistSet, hliveEq]
        simp only []
        constructor
        · intro hfalse
          exact absurd hfalse (by simp)
        · intro hzero
          omega
      · refine ⟨?_, ?_, fun h0 => by omega, fun _ => ⟨?_, ?_, ?_⟩⟩
        · rw [hdD]
          simp only []
          intro hcontra
          have hmm := (hpermFinal.mem_iff).mp hcontra
          rw [hheld] at hmm
          exact (hnd.not_mem_erase) hmm
        · rw [hdD]
          simp only []
          exact hpermFinal
        · rw [hdD]
          simp only []
          exact hlistSet
        · rw [hdD]
          simp only []
          rw [hliveEq]
        · rw [hdD]
          simp only []
          rw [hpl, hst]
          unfold refAddr get_flag REFERENCE_BIT AddrVal.compAddr
          simp

/-- Concrete value-plus-list cell used by the C4 witness. -/
def WC4 : CellState := add_ref (mk_with_value 4 100) ⟨8, 201⟩

/-- C4 witness: destroying the value of a value-plus-list cell with
live records `{4 (self), 8}` removes the self-reference, collapses the
list into the single-reference state holding `8`, and returns
`false`. -/
theorem destroy_value_spec_witness :
    get_flag REFERENCE_BIT (destroy_value WC4).1 ≠ 0 ∧
    ((destroy_value WC4).2 = decide (get_flag LIST_BIT WC4 = 0)) ∧
    ((destroy_value WC4).2 = true ↔ live_ref_count (destroy_value WC4).1 = 0) ∧
    (get_flag LIST_BIT WC4 = 0 → (destroy_value WC4).1 = set_flag REFERENCE_BIT WC4) ∧
    (get_flag LIST_BIT WC4 ≠ 0 →
      WC4.self ∉ heldPtrs (destroy_value WC4).1 ∧
      (heldPtrs (destroy_value WC4).1).Perm ((heldPtrs WC4).erase WC4.self) ∧
      (WC4.lst.size = 2 →
        get_flag LIST_BIT (destroy_value WC4).1 = 0 ∧
        ∀ r ∈ cellLive WC4, r.pointer ≠ WC4.self →
          get_single_ref (destroy_value WC4).1 = r ∧
          refAddr (destroy_value WC4).1 = r.pointer) ∧
      (3 ≤ WC4.lst.size →
        get_flag LIST_BIT (destroy_value WC4).1 ≠ 0 ∧
        (destroy_value WC4).1.lst.size = WC4.lst.size - 1 ∧
        refAddr (destroy_value WC4).1 =
          ((destroy_value WC4).1.lst.arr.getD 0 junkRef).pointer)) :=
  destroy_value_spec WC4 (by decide) (by decide) (fun h => absurd h (by decide))
    (fun _ => by decide)

/-! ## The cascade of `destroy_all_refs` on a value-plus-list cell -/

theorem getDTake {α : Type} (l : List α) (n j : Nat) (d : α) (hj : j < n) :
    (l.take n).getD j d = l.getD j d := by
  induction l generalizing n j with
  | nil => simp
  | cons x xs ih =>
    cases n with
    | zero => omega
    | succ m =>
      cases j with
      | zero => rfl
      | succ j2 =>
        simp only [List.take_succ_cons, List.getD_cons_succ]
        exact ih m j2 (by omega)

theorem setLastOfLen {α : Type} (m : List α) (k : Nat) (x : α)
    (hlen : m.length = k) (hk : 1 ≤ k) :
    m.set (k - 1) x = m.take (k - 1) ++ [x] := by
  induction m generalizing k with
  | nil => simp at hlen; omega
  | cons y ys ih =>
    cases k with
    | zero => omega
    | succ k2 =>
      cases k2 with
      | zero =>
        have hys : ys = [] := by
          have h0 : ys.length = 0 := by
            have h1 : ys.length + 1 = 1 := by simpa using hlen
            omega
          exact List.length_eq_zero.mp h0
        subst hys
        rfl
      | succ k3 =>
        have h1 : ys.set (k3 + 1 - 1) x = ys.take (k3 + 1 - 1) ++ [x] :=
          ih (k3 + 1) (by simpa using hlen) (by omega)
        simp only [Nat.add_sub_cancel] at h1 ⊢
        simp only [List.set_cons_succ, List.take_succ_cons, List.cons_append]
        rw [h1]

theorem nodupGetDNe (l : List Nat) (hnd : l.Nodup) (i j : Nat)
    (hi : i < l.length) (hj : j < l.length) (hne : i ≠ j) :
    l.getD i 0 ≠ l.getD j 0 := by
  rw [List.getD_eq_getElem _ _ hi, List.getD_eq_getElem _ _ hj]
  intro heq
  exact hne ((List.Nodup.getElem_inj_iff hnd).mp heq)

theorem findIdxAt (l : List PRef) (j : Nat) (hj : j < l.length)
    (hnd : (l.map PRef.pointer).Nodup) :
    l.findIdx? (fun m => m.pointer = (l.getD j junkRef).pointer) = some j := by
  apply findIdxFirst l j _ hj rfl
  intro j2 hj2
  have h1 := nodupGetDNe (l.map PRef.pointer) hnd j2 j
    (by simpa using (by omega : j2 < l.length)) (by simpa using hj) (by omega)
  rw [mapGetD _ _ (by omega : j2 < l.length), mapGetD _ _ hj] at h1
  exact h1

theorem swapSelf (a : List PRef) (k : Nat) (hk : k < a.length) :
    swapSlots a k k = a := by
  unfold swapSlots
  rw [listSetGetDSelf _ _ _ hk]
  rw [listSetGetDSelf _ _ _ hk]

/-- Case A of the loop invariant: the loop counter equals the live
size, the self-record has not yet been reached. -/
def QA (k : Nat) (c : CellState) : Prop :=
  c.flags = 2 ∧ c.addr = AddrVal.listBase ∧
  c.lst.size = k ∧ 2 ≤ k ∧ k ≤ c.lst.arr.length ∧
  (livePtrs c).Nodup ∧ c.self ∈ livePtrs c

/-- Case B: the self-record was skipped at index `k`; the live size is
one more than the loop counter and the self-record sits last. -/
def QB (k : Nat) (c : CellState) : Prop :=
  c.flags = 2 ∧ c.addr = AddrVal.listBase ∧
  c.lst.size = k + 1 ∧ 1 ≤ k ∧ k + 1 ≤ c.lst.arr.length ∧
  (livePtrs c).Nodup ∧ (livePtrs c).getD k 0 = c.self

/-- Case C: the list has collapsed back into the value-only state; at
most the stale self-record remains to be (skipped) by the loop. -/
def QC (k : Nat) (c : CellState) : Prop :=
  c.flags = 0 ∧ c.addr = AddrVal.nullBase ∧ k ≤ 1 ∧
  (k = 1 → (c.lst.arr.getD 0 junkRef).pointer = c.self)

theorem memGetDIdx (l : List Nat) (a : Nat) (h : a ∈ l) :
    ∃ j, j < l.length ∧ l.getD j 0 = a := by
  induction l with
  | nil => simp at h
  | cons x xs ih =>
    rcases List.mem_cons.mp h with h1 | h1
    · exact ⟨0, by simp, h1.symm⟩
    · obtain ⟨j, hj, hg⟩ := ih h1
      exact ⟨j + 1, by simpa using hj, by simpa using hg⟩

theorem getDMem (l : List Nat) (j : Nat) (hj : j < l.length) : l.getD j 0 ∈ l := by
  rw [List.getD_eq_getElem _ _ hj]
  exact List.getElem_mem hj

theorem getDSetEq {α : Type} (l : List α) (j : Nat) (x d : α) (h : j < l.length) :
    (l.set j x).getD j d = x := by
  induction l generalizing j with
  | nil => simp at h
  | cons y ys ih =>
    cases j with
    | zero => rfl
    | succ m =>
      simp only [List.set_cons_succ, List.getD_cons_succ]
      exact ih m (by simpa using h)

theorem darLoop_succ (c : CellState) (k : Nat) :
    darLoop c (k + 1) =
      darLoop (if (c.lst.arr.getD k junkRef).pointer ≠ c.self then
        cascade_delete c (c.lst.arr.getD k junkRef).pointer else c) k := rfl

/-- The backwards deleter loop of `destroy_all_refs`, started on a
value-plus-list cell in any of the three invariant shapes, ends with
the cell in the value-only state: the cascade has freed the list. -/
theorem darLoop_inv (k : Nat) :
    ∀ c, QA k c ∨ QB k c ∨ QC k c →
      (darLoop c k).flags = 0 ∧ (darLoop c k).addr = AddrVal.nullBase := by
  induction k with
  | zero =>
    intro c hq
    rcases hq with hA | hB | hC
    · exact absurd hA.2.2.2.1 (by omega)
    · exact absurd hB.2.2.2.1 (by omega)
    · exact ⟨hC.1, hC.2.1⟩
  | succ k ih =>
    intro c hq
    rcases hq with hA | hB | hC
    · obtain ⟨hfl, had, hsz, hk2, hlen, hnd, hmem⟩ := hA
      have hkl : k < c.lst.arr.length := by omega
      have hlivelen : c.lst.live.length = c.lst.size := by
        unfold RList.live
        simp [List.length_take, Nat.min_eq_left (show c.lst.size ≤ c.lst.arr.length by omega)]
      have hent : c.lst.live.getD k junkRef = c.lst.arr.getD k junkRef := by
        unfold RList.live
        rw [hsz]
        exact getDTake c.lst.arr (k + 1) k junkRef (by omega)
      have hlpent : (livePtrs c).getD k 0 = (c.lst.arr.getD k junkRef).pointer := by
        unfold livePtrs
        rw [mapGetD _ _ (by omega), hent]
      have hLI : get_flag LIST_BIT c ≠ 0 := by
        show c.flags &&& 2 ≠ 0
        rw [hfl]
        decide
      have hR0 : get_flag REFERENCE_BIT c = 0 := by
        show c.flags &&& 1 = 0
        rw [hfl]
        decide
      rw [darLoop_succ]
      by_cases hes : (c.lst.arr.getD k junkRef).pointer = c.self
      · rw [if_neg (fun hne => hne hes)]
        apply ih
        right; left
        exact ⟨hfl, had, hsz, by omega, by omega, hnd, by rw [hlpent]; exact hes⟩
      · rw [if_pos hes]
        have hfind : c.lst.live.findIdx?
            (fun m => m.pointer = (c.lst.arr.getD k junkRef).pointer) = some k := by
          have h1 := findIdxAt c.lst.live k (by omega) hnd
          rw [hent] at h1
          exact h1
        have hcd : cascade_delete c (c.lst.arr.getD k junkRef).pointer =
            (delete_ref_internal c (c.lst.arr.getD k junkRef).pointer).1 := by
          unfold cascade_delete delete_ref
          rw [if_pos hLI]
        rw [hcd]
        rcases Nat.lt_or_ge (k + 1) 3 with hlt | hge
        · -- the captured size is 2: the list collapses; only the stale
          -- self-record remains under the loop
          have hk1 : k = 1 := by omega
          subst hk1
          have hst := dri_state_two_val c _ 1 hfind (by omega) hR0
          rw [hst]
          apply ih
          right; right
          refine ⟨rfl, rfl, by omega, fun _ => ?_⟩
          show ((swapSlots c.lst.arr 1 1).getD 0 junkRef).pointer = c.self
          rw [swapSelf c.lst.arr 1 (by omega)]
          -- the self-record must sit at index 0 since index 1 is foreign
          obtain ⟨j, hj, hg⟩ := memGetDIdx (livePtrs c) c.self hmem
          have hj2 : j < 2 := by
            have : (livePtrs c).length = 2 := by
              unfold livePtrs
              rw [List.length_map, hlivelen, hsz]
            omega
          have hj0 : j = 0 := by
            rcases Nat.lt_or_ge j 1 with h | h
            · omega
            · exfalso
              have : j = 1 := by omega
              subst this
              rw [hlpent] at hg
              exact hes hg
          subst hj0
          have hh : (livePtrs c).getD 0 0 = (c.lst.arr.getD 0 junkRef).pointer := by
            unfold livePtrs
            rw [mapGetD _ _ (by omega)]
            unfold RList.live
            rw [hsz]
            rw [getDTake c.lst.arr 2 0 junkRef (by omega)]
          rw [← hh, hg]
        · -- the list stays: the entry at the top is removed in place
          have hst := dri_state_big_val c _ k hfind (by omega) hR0
          rw [hst]
          apply ih
          left
          have hswap : swapSlots c.lst.arr k k = c.lst.arr := swapSelf c.lst.arr k hkl
          have harrlen : (swapSlots c.lst.arr k (c.lst.size - 1)).length =
              c.lst.arr.length := by
            unfold swapSlots
            simp
          have hlp : livePtrs { c with
              addr := AddrVal.listBase, flags := 2,
              lst := ⟨c.lst.size - 1, c.lst.cap,
                swapSlots c.lst.arr k (c.lst.size - 1)⟩ } = (livePtrs c).take k := by
            unfold livePtrs RList.live
            simp only [hsz, Nat.add_sub_cancel, hswap]
            rw [← List.map_take, List.take_take]
            simp [Nat.min_eq_left (by omega : k ≤ k + 1)]
          refine ⟨rfl, rfl, show c.lst.size - 1 = k by omega, by omega, ?_, ?_, ?_⟩
          · show k ≤ (swapSlots c.lst.arr k (c.lst.size - 1)).length
            rw [harrlen]
            omega
          · rw [hlp]
            exact (List.take_sublist k (livePtrs c)).nodup hnd
          · rw [hlp]
            obtain ⟨j, hj, hg⟩ := memGetDIdx (livePtrs c) c.self hmem
            have hlplen : (livePtrs c).length = k + 1 := by
              unfold livePtrs
              rw [List.length_map, hlivelen, hsz]
            have hjk : j ≠ k := by
              intro hjeq
              subst hjeq
              rw [hlpent] at hg
              exact hes hg
            have hjlt : j < k := by omega
            have : ((livePtrs c).take k).getD j 0 = c.self := by
              rw [getDTake _ _ _ _ hjlt]
              exact hg
            rw [← this]
            apply getDMem
            rw [List.length_take]
            omega
    · obtain ⟨hfl, had, hsz, hk1, hlen, hnd, hlast⟩ := hB
      have hkl : k < c.lst.arr.length := by omega
      have hlivelen : c.lst.live.length = c.lst.size := by
        unfold RList.live
        simp [List.length_take, Nat.min_eq_left (show c.lst.size ≤ c.lst.arr.length by omega)]
      have hlplen : (livePtrs c).length = k + 2 := by
        unfold livePtrs
        rw [List.length_map, hlivelen, hsz]
      have hent : c.lst.live.getD k junkRef = c.lst.arr.getD k junkRef := by
        unfold RList.live
        rw [hsz]
        exact getDTake c.lst.arr (k + 2) k junkRef (by omega)
      have hlpent : (livePtrs c).getD k 0 = (c.lst.arr.getD k junkRef).pointer := by
        unfold livePtrs
        rw [mapGetD _ _ (by omega), hent]
      have hLI : get_flag LIST_BIT c ≠ 0 := by
        show c.flags &&& 2 ≠ 0
        rw [hfl]
        decide
      have hR0 : get_flag REFERENCE_BIT c = 0 := by
        show c.flags &&& 1 = 0
        rw [hfl]
        decide
      have hes : (c.lst.arr.getD k junkRef).pointer ≠ c.self := by
        rw [← hlpent]
        rw [← hlast]
        exact nodupGetDNe (livePtrs c) hnd k (k + 1) (by omega) (by omega) (by omega)
      rw [darLoop_succ, if_pos hes]
      have hfind : c.lst.live.findIdx?
          (fun m => m.pointer = (c.lst.arr.getD k junkRef).pointer) = some k := by
        have h1 := findIdxAt c.lst.live k (by omega) hnd
        rw [hent] at h1
        exact h1
      have hcd : cascade_delete c (c.lst.arr.getD k junkRef).pointer =
          (delete_ref_internal c (c.lst.arr.getD k junkRef).pointer).1 := by
        unfold cascade_delete delete_ref
        rw [if_pos hLI]
      rw [hcd]
      rcases Nat.lt_or_ge (k + 2) 3 with hlt | hge
      · -- two live records: the foreign one goes, the self-record
        -- slides into slot 0 and the list is freed
        have hk0 : k = 0 := by omega
        subst hk0
        have hst := dri_state_two_val c _ 0 hfind (by omega) hR0
        rw [hst]
        apply ih
        right; right
        exact ⟨rfl, rfl, by omega, fun h => absurd h (by omega)⟩
      · -- the self-record swaps down into the deleted slot
        have hst := dri_state_big_val c _ k hfind (by omega) hR0
        rw [hst]
        apply ih
        right; left
        have hszm : c.lst.size - 1 = k + 1 := by omega
        have harrlen : (swapSlots c.lst.arr k (c.lst.size - 1)).length = c.lst.arr.length := by
          unfold swapSlots
          simp
        have hselfrec : (c.lst.arr.getD (k + 1) junkRef).pointer = c.self := by
          have h1 : c.lst.live.getD (k + 1) junkRef = c.lst.arr.getD (k + 1) junkRef := by
            unfold RList.live
            rw [hsz]
            exact getDTake c.lst.arr (k + 2) (k + 1) junkRef (by omega)
          rw [← h1]
          rw [← hlast]  -- placeholder adjust
          unfold livePtrs
          rw [mapGetD _ _ (by omega)]
        have hlive' : ({ c with
            addr := AddrVal.listBase, flags := 2,
            lst := ⟨c.lst.size - 1, c.lst.cap,
              swapSlots c.lst.arr k (c.lst.size - 1)⟩ } : CellState).lst.live =
            (c.lst.arr.take (k + 1)).set k (c.lst.arr.getD (k + 1) junkRef) := by
          unfold RList.live
          simp only [hszm]
          unfold swapSlots
          rw [takeSetHigh _ _ _ _ (Nat.le_refl (k + 1))]
          rw [takeSetInside _ _ _ _ (by omega)]
        have hmt : List.map PRef.pointer (c.lst.arr.take (k + 1)) =
            (livePtrs c).take (k + 1) := by
          unfold livePtrs RList.live
          rw [hsz, ← List.map_take, List.take_take]
          simp [Nat.min_eq_left (by omega : k + 1 ≤ k + 2)]
        have hLlen : ((livePtrs c).take (k + 1)).length = k + 1 := by
          rw [List.length_take]
          omega
        have hsl := setLastOfLen ((livePtrs c).take (k + 1)) (k + 1) c.self hLlen (by omega)
        simp only [Nat.add_sub_cancel] at hsl
        have hlp' : livePtrs ({ c with
            addr := AddrVal.listBase, flags := 2,
            lst := ⟨c.lst.size - 1, c.lst.cap,
              swapSlots c.lst.arr k (c.lst.size - 1)⟩ } : CellState) =
            ((livePtrs c).take (k + 1)).set k c.self := by
          unfold livePtrs
          rw [hlive', List.map_set, hselfrec, hmt]
          rfl
        refine ⟨rfl, rfl, by simp [hszm], by omega, ?_, ?_, ?_⟩
        · show k + 1 ≤ (swapSlots c.lst.arr k (c.lst.size - 1)).length
          rw [harrlen]
          omega
        · show (livePtrs { c with
            addr := AddrVal.listBase, flags := 2,
            lst := ⟨c.lst.size - 1, c.lst.cap,
              swapSlots c.lst.arr k (c.lst.size - 1)⟩ }).Nodup
          rw [hlp', hsl, List.nodup_append]
          refine ⟨?_, by simp, ?_⟩
          · exact ((List.take_sublist _ _).trans (List.take_sublist _ _)).nodup hnd
          · intro x hx hx2
            have hxself : x = c.self := by simpa using hx2
            subst hxself
            obtain ⟨j, hj, hg⟩ := memGetDIdx _ _ hx
            have hjlen : j < k := by
              have := hj
              rw [List.length_take, hLlen] at this
              omega
            rw [getDTake _ _ _ _ hjlen, getDTake _ _ _ _ (by omega)] at hg
            have hne := nodupGetDNe (livePtrs c) hnd j (k + 1) (by omega) (by omega) (by omega)
            rw [hg, hlast] at hne
            exact hne rfl
        · show (livePtrs { c with
            addr := AddrVal.listBase, flags := 2,
            lst := ⟨c.lst.size - 1, c.lst.cap,
              swapSlots c.lst.arr k (c.lst.size - 1)⟩ }).getD k 0 = c.self
          rw [hlp']
          exact getDSetEq _ _ _ _ (by rw [hLlen]; omega)
    · obtain ⟨hfl, had, hk1, hread⟩ := hC
      have hk0 : k = 0 := by omega
      subst hk0
      rw [darLoop_succ, if_neg (fun hne => hne (hread rfl))]
      exact ⟨hfl, had⟩

/-- With the LIST flag set and the value still owned (REFERENCE clear),
every loop iteration that meets a foreign record erases exactly that
record, and the iteration that meets the stale self-record skips it;
the list collapses to the value-only null state before the assertion. -/
theorem destroy_all_refs_assert_holds (c : CellState)
    (hfl : c.flags = 2) (had : c.addr = AddrVal.listBase)
    (hsz : 2 ≤ c.lst.size) (hlen : c.lst.size ≤ c.lst.arr.length)
    (hnd : (livePtrs c).Nodup) (hmem : c.self ∈ livePtrs c) :
    destroy_all_refs_assert_read c = some (some 0) := by
  have hLI : get_flag LIST_BIT c ≠ 0 := by
    show ¬ (c.flags &&& 2 = 0)
    rw [hfl]
    decide
  have hR0 : get_flag REFERENCE_BIT c = 0 := by
    show c.flags &&& 1 = 0
    rw [hfl]
    decide
  have hgl : get_list c = c.lst := by
    unfold get_list get_list_opt
    rw [if_neg (fun hne => hne hR0), had]
    rfl
  have hinv := darLoop_inv c.lst.size c (Or.inl ⟨hfl, had, rfl, hsz, hlen, hnd, hmem⟩)
  unfold destroy_all_refs_assert_read
  rw [if_pos hLI, hgl]
  unfold list_capacity_read get_list_opt
  have hR0f : get_flag REFERENCE_BIT (darLoop c c.lst.size) = 0 := by
    show (darLoop c c.lst.size).flags &&& 1 = 0
    rw [hinv.1]
    decide
  rw [if_neg (fun hne => hne hR0f), hinv.2]
  rfl

def WC7A : CellState := add_ref (mk_with_value 4 100) ⟨8, 201⟩

/-- C7 amended-theorem witness: a value-owning cell with list `{4
(self), 8}` passes the capacity-zero assertion. -/
theorem destroy_all_refs_assert_holds_witness :
    destroy_all_refs_assert_read WC7A = some (some 0) :=
  destroy_all_refs_assert_holds WC7A (by decide) (by decide) (by decide)
    (by decide) (by decide) (by decide)

/-! ## The page pool (`component_ref_list_page_source`)

Translated from `component_ref_list_page_source` (polymorphic.hpp
261-304).  Addresses are word offsets into a flat heap; the standard
allocator behind `alloc_traits::allocate` is outside `src/` and is
modelled as a bump pointer `next_base` handing out fresh, disjoint
slabs.  `sizeof(polymorphic_component_ref)` is two machine words
(component pointer and deleter). -/

/-- `elems_per_ref = sizeof(polymorphic_component_ref) / sizeof(void*)`. -/
def elems_per_ref : Nat := 2

/-- `page_size`: each page holds this many list slabs. -/
def page_size : Nat := 1024

/-- One pool page: base address, element size this page serves, bump
count of slots handed out, head of the intrusive free list (`-1` =
empty), and the two in-band words of every slab (`word0` doubles as
the free-list link, `word1` as the capacity word). -/
structure PoolPage where
  base : Nat
  elem_size : Nat
  elem_count : Nat
  free_list : Int
  word0 : Nat → Int
  word1 : Nat → Nat

/-- The pool: the page vector plus the bump pointer modelling the
backing allocator. -/
structure PoolState where
  pages : List PoolPage
  next_base : Nat

/-- `allocate_page(elem_size)` (modelled allocator: the fresh slab
starts at `next_base`; its memory is unspecified, read as `0`). -/
def fresh_page (b n : Nat) : PoolPage :=
  ⟨b, n, 0, -1, fun _ => 0, fun _ => 0⟩

/-- The slot-picking step of `allocate_array`: pop the free list when
it is nonempty, otherwise bump `elem_count`. -/
def alloc_slot (p : PoolPage) : Nat × PoolPage :=
  if p.free_list = -1 then
    (p.elem_count, { p with elem_count := p.elem_count + 1 })
  else
    (p.free_list.toNat, { p with free_list := p.word0 p.free_list.toNat })

/-- The two in-band writes of `allocate_array`: `start[0] = 0` (count)
and `start[1] = count` (capacity). -/
def finish_slot (p : PoolPage) (n i : Nat) : PoolPage :=
  { p with word0 := fun j => if j = i then 0 else p.word0 j,
           word1 := fun j => if j = i then n else p.word1 j }

/-- Allocate one `n`-element slab from page `p`: returned address and
updated page. -/
def alloc_in_page (p : PoolPage) (n : Nat) : Nat × PoolPage :=
  (p.base + (alloc_slot p).1 * (n * elems_per_ref + 2),
   finish_slot (alloc_slot p).2 n (alloc_slot p).1)

/-- The `find_if` + slot code of `allocate_array` over the page
vector: use the first page serving `n`-element slabs that still has
room (a free slot below `page_size` or a nonempty free list). -/
def alloc_in_pages (n : Nat) : List PoolPage → Option (Nat × List PoolPage)
  | [] => none
  | p :: ps =>
      if p.elem_size = n ∧ (p.elem_count < page_size ∨ p.free_list ≠ -1) then
        some ((alloc_in_page p n).1, (alloc_in_page p n).2 :: ps)
      else
        (alloc_in_pages n ps).map (fun r => (r.1, p :: r.2))

/-- `allocate_array(count)`: serve from an existing page, or
`emplace_back(allocate_page(count))` and serve slot 0 of the fresh
page. -/
def allocate_array (st : PoolState) (n : Nat) : Nat × PoolState :=
  match alloc_in_pages n st.pages with
  | some r => (r.1, ⟨r.2, st.next_base⟩)
  | none =>
      ((alloc_in_page (fresh_page st.next_base n) n).1,
       ⟨st.pages ++ [(alloc_in_page (fresh_page st.next_base n) n).2],
        st.next_base + page_size * (elems_per_ref * n + 2)⟩)

/-- The free-list push of `free_array` on the owning page:
`new_free_list = (array - base) / stride`, store the old head in the
slab's word 0 and make the slab the new head. -/
def free_in_page (p : PoolPage) (a : Nat) : PoolPage :=
  { p with
      free_list := (((a - p.base) / (elems_per_ref * p.elem_size + 2) : Nat) : Int),
      word0 := fun j =>
        if j = (a - p.base) / (elems_per_ref * p.elem_size + 2) then p.free_list
        else p.word0 j }

/-- The `find_if` of `free_array`: the first page whose address range
contains `a`.  When no page contains `a` the source asserts (and the
release build is undefined); the model leaves the pool unchanged. -/
def free_in_pages (a : Nat) : List PoolPage → List PoolPage
  | [] => []
  | p :: ps =>
      if p.base ≤ a ∧ a < p.base + page_size * (elems_per_ref * p.elem_size + 2) then
        free_in_page p a :: ps
      else
        p :: free_in_pages a ps

/-- `free_array(array)`. -/
def free_array (st : PoolState) (a : Nat) : PoolState :=
  ⟨free_in_pages a st.pages, st.next_base⟩

/-- The byte (word) extent of a page as allocated by `allocate_page`. -/
def pageRange (p : PoolPage) : Nat := page_size * (elems_per_ref * p.elem_size + 2)

/-- Well-formed page vector: page ranges are pairwise disjoint, bump
counts never exceed `page_size`, and every nonempty free-list head is
a valid slot index. -/
def pagesWF (ps : List PoolPage) : Prop :=
  ps.Pairwise (fun p q => p.base + pageRange p ≤ q.base ∨ q.base + pageRange q ≤ p.base) ∧
  (∀ p ∈ ps, p.elem_count ≤ page_size) ∧
  (∀ p ∈ ps, p.free_list = -1 ∨ (0 ≤ p.free_list ∧ p.free_list < (page_size : Int)))

/-- Well-formed pool: the pages are well formed and every page sits
below the bump pointer of the modelled allocator. -/
def PoolWF (st : PoolState) : Prop :=
  pagesWF st.pages ∧ ∀ p ∈ st.pages, p.base + pageRange p ≤ st.next_base

theorem alloc_slot_base (p : PoolPage) : (alloc_slot p).2.base = p.base := by
  unfold alloc_slot
  split <;> rfl

theorem alloc_slot_esize (p : PoolPage) : (alloc_slot p).2.elem_size = p.elem_size := by
  unfold alloc_slot
  split <;> rfl

/-- The slot index handed out by a page that passed the `find_if`
condition is a valid slot index. -/
theorem alloc_idx_lt (p : PoolPage) (n : Nat)
    (hc : p.elem_size = n ∧ (p.elem_count < page_size ∨ p.free_list ≠ -1))
    (hfl : p.free_list = -1 ∨ (0 ≤ p.free_list ∧ p.free_list < (page_size : Int))) :
    (alloc_slot p).1 < page_size := by
  unfold alloc_slot
  by_cases hp : p.free_list = -1
  · rw [if_pos hp]
    rcases hc.2 with h | h
    · exact h
    · exact absurd hp h
  · rw [if_neg hp]
    rcases hfl with h | h
    · exact absurd h hp
    · show p.free_list.toNat < page_size
      unfold page_size at h ⊢
      omega

/-- The address returned by `alloc_in_pages` lies in the range of a
page of the vector serving that element size. -/
theorem alloc_mem (n : Nat) (ps : List PoolPage)
    (hcnt : ∀ p ∈ ps, p.elem_count ≤ page_size)
    (hfl : ∀ p ∈ ps, p.free_list = -1 ∨ (0 ≤ p.free_list ∧ p.free_list < (page_size : Int))) :
    ∀ b ps', alloc_in_pages n ps = some (b, ps') →
      ∃ q ∈ ps, q.elem_size = n ∧ q.base ≤ b ∧ b < q.base + pageRange q := by
  induction ps with
  | nil =>
    intro b ps' h
    simp [alloc_in_pages] at h
  | cons p ps ih =>
    intro b ps' h
    rw [alloc_in_pages] at h
    by_cases hc : p.elem_size = n ∧ (p.elem_count < page_size ∨ p.free_list ≠ -1)
    · rw [if_pos hc, Option.some.injEq, Prod.mk.injEq] at h
      obtain ⟨hb, -⟩ := h
      refine ⟨p, List.mem_cons_self p ps, hc.1, ?_, ?_⟩
      · rw [← hb]
        exact Nat.le_add_right _ _
      · rw [← hb]
        show p.base + (alloc_slot p).1 * (n * elems_per_ref + 2) <
          p.base + page_size * (elems_per_ref * p.elem_size + 2)
        have hidx := alloc_idx_lt p n hc (hfl p (List.mem_cons_self p ps))
        have hS : 0 < n * elems_per_ref + 2 := by omega
        have hmul : (alloc_slot p).1 * (n * elems_per_ref + 2) <
            page_size * (n * elems_per_ref + 2) :=
          Nat.mul_lt_mul_of_lt_of_le hidx (Nat.le_refl _) hS
        have heq : page_size * (elems_per_ref * p.elem_size + 2) =
            page_size * (n * elems_per_ref + 2) := by
          rw [hc.1, Nat.mul_comm n elems_per_ref]
        omega
    · rw [if_neg hc] at h
      cases hrec : alloc_in_pages n ps with
      | none =>
        rw [hrec] at h
        simp at h
      | some r =>
        rw [hrec] at h
        obtain ⟨b2, ps2⟩ := r
        rw [Option.map_some', Option.some.injEq, Prod.mk.injEq] at h
        obtain ⟨hb, -⟩ := h
        obtain ⟨q, hq, hrest⟩ := ih (fun x hx => hcnt x (List.mem_cons_of_mem p hx))
          (fun x hx => hfl x (List.mem_cons_of_mem p hx)) b2 ps2 hrec
        exact ⟨q, List.mem_cons_of_mem p hq, hb ▸ hrest⟩

/-- Free-then-reallocate roundtrip on the page that served an
allocation: the freed slab is the new free-list head, so the next
allocation of the same element size from this page returns the same
address. -/
theorem page_free_realloc (p : PoolPage) (n : Nat)
    (hc : p.elem_size = n ∧ (p.elem_count < page_size ∨ p.free_list ≠ -1))
    (hfl : p.free_list = -1 ∨ (0 ≤ p.free_list ∧ p.free_list < (page_size : Int))) :
    ((alloc_in_page p n).2.base ≤ (alloc_in_page p n).1 ∧
      (alloc_in_page p n).1 < (alloc_in_page p n).2.base +
        page_size * (elems_per_ref * (alloc_in_page p n).2.elem_size + 2)) ∧
    (free_in_page (alloc_in_page p n).2 (alloc_in_page p n).1).elem_size = n ∧
    (free_in_page (alloc_in_page p n).2 (alloc_in_page p n).1).free_list ≠ -1 ∧
    (alloc_in_page (free_in_page (alloc_in_page p n).2 (alloc_in_page p n).1) n).1 =
      (alloc_in_page p n).1 := by
  have hidx := alloc_idx_lt p n hc hfl
  have hb2 : (alloc_in_page p n).2.base = p.base := by
    show (alloc_slot p).2.base = p.base
    exact alloc_slot_base p
  have he2 : (alloc_in_page p n).2.elem_size = n := by
    show (alloc_slot p).2.elem_size = n
    rw [alloc_slot_esize]
    exact hc.1
  have hb1 : (alloc_in_page p n).1 =
      p.base + (alloc_slot p).1 * (n * elems_per_ref + 2) := rfl
  have hquot : ((alloc_in_page p n).1 - (alloc_in_page p n).2.base) /
      (elems_per_ref * (alloc_in_page p n).2.elem_size + 2) = (alloc_slot p).1 := by
    rw [hb1, hb2, he2, Nat.add_sub_cancel_left, Nat.mul_comm elems_per_ref n,
      Nat.mul_div_cancel _ (show 0 < n * elems_per_ref + 2 by omega)]
  refine ⟨⟨?_, ?_⟩, he2, ?_, ?_⟩
  · rw [hb1, hb2]
    exact Nat.le_add_right _ _
  · rw [hb1, hb2, he2]
    have hS : 0 < n * elems_per_ref + 2 := by omega
    have hmul := Nat.mul_lt_mul_of_lt_of_le hidx (Nat.le_refl (n * elems_per_ref + 2)) hS
    have heq : page_size * (elems_per_ref * n + 2) = page_size * (n * elems_per_ref + 2) := by
      rw [Nat.mul_comm n elems_per_ref]
    omega
  · show ((((alloc_in_page p n).1 - (alloc_in_page p n).2.base) /
      (elems_per_ref * (alloc_in_page p n).2.elem_size + 2) : Nat) : Int) ≠ -1
    omega
  · have hfl3 : (free_in_page (alloc_in_page p n).2 (alloc_in_page p n).1).free_list ≠ -1 := by
      show ((((alloc_in_page p n).1 - (alloc_in_page p n).2.base) /
        (elems_per_ref * (alloc_in_page p n).2.elem_size + 2) : Nat) : Int) ≠ -1
      omega
    have ht : ((free_in_page (alloc_in_page p n).2 (alloc_in_page p n).1).free_list).toNat =
        (alloc_slot p).1 := by
      show ((((alloc_in_page p n).1 - (alloc_in_page p n).2.base) /
        (elems_per_ref * (alloc_in_page p n).2.elem_size + 2) : Nat) : Int).toNat =
        (alloc_slot p).1
      rw [Int.toNat_ofNat, hquot]
    show (free_in_page (alloc_in_page p n).2 (alloc_in_page p n).1).base +
        (alloc_slot (free_in_page (alloc_in_page p n).2 (alloc_in_page p n).1)).1 *
          (n * elems_per_ref + 2) = (alloc_in_page p n).1
    unfold alloc_slot
    rw [if_neg hfl3]
    show (alloc_in_page p n).2.base +
        ((free_in_page (alloc_in_page p n).2 (alloc_in_page p n).1).free_list).toNat *
          (n * elems_per_ref + 2) = (alloc_in_page p n).1
    rw [ht, hb2, hb1]

/-- Allocate, free the returned slab, allocate again over a
well-formed page vector: the same address comes back. -/
theorem alloc_free_alloc_pages (n : Nat) (ps : List PoolPage)
    (hdisj : ps.Pairwise (fun p q => p.base + pageRange p ≤ q.base ∨ q.base + pageRange q ≤ p.base))
    (hcnt : ∀ p ∈ ps, p.elem_count ≤ page_size)
    (hfl : ∀ p ∈ ps, p.free_list = -1 ∨ (0 ≤ p.free_list ∧ p.free_list < (page_size : Int))) :
    ∀ b ps', alloc_in_pages n ps = some (b, ps') →
      ∃ l, alloc_in_pages n (free_in_pages b ps') = some (b, l) := by
  induction ps with
  | nil =>
    intro b ps' h
    simp [alloc_in_pages] at h
  | cons p ps ih =>
    intro b ps' h
    rw [alloc_in_pages] at h
    by_cases hc : p.elem_size = n ∧ (p.elem_count < page_size ∨ p.free_list ≠ -1)
    · rw [if_pos hc, Option.some.injEq, Prod.mk.injEq] at h
      obtain ⟨hb, hps⟩ := h
      subst hb
      subst hps
      obtain ⟨⟨hr1, hr2⟩, he3, hf3, hre⟩ :=
        page_free_realloc p n hc (hfl p (List.mem_cons_self p ps))
      rw [free_in_pages, if_pos ⟨hr1, hr2⟩]
      refine ⟨(alloc_in_page (free_in_page (alloc_in_page p n).2 (alloc_in_page p n).1) n).2 :: ps, ?_⟩
      rw [alloc_in_pages, if_pos ⟨he3, Or.inr hf3⟩, hre]
    · rw [if_neg hc] at h
      cases hrec : alloc_in_pages n ps with
      | none =>
        rw [hrec] at h
        simp at h
      | some r =>
        rw [hrec] at h
        obtain ⟨b2, ps2⟩ := r
        rw [Option.map_some', Option.some.injEq, Prod.mk.injEq] at h
        obtain ⟨hb, hps⟩ := h
        subst hb
        subst hps
        obtain ⟨q, hq, hqn, hqlo, hqhi⟩ :=
          alloc_mem n ps (fun x hx => hcnt x (List.mem_cons_of_mem p hx))
            (fun x hx => hfl x (List.mem_cons_of_mem p hx)) b2 ps2 hrec
        have hd := List.pairwise_cons.mp hdisj
        have hnp : ¬(p.base ≤ b2 ∧
            b2 < p.base + page_size * (elems_per_ref * p.elem_size + 2)) := by
          rintro ⟨hlo, hhi⟩
          rcases hd.1 q hq with hle | hle
          · unfold pageRange at hle
            omega
          · unfold pageRange at hle hqhi
            omega
        rw [free_in_pages, if_neg hnp]
        obtain ⟨l2, hl2⟩ := ih hd.2 (fun x hx => hcnt x (List.mem_cons_of_mem p hx))
          (fun x hx => hfl x (List.mem_cons_of_mem p hx)) b2 ps2 hrec
        refine ⟨p :: l2, ?_⟩
        rw [alloc_in_pages, if_neg hc, hl2]
        rfl

theorem free_in_pages_append (a : Nat) (xs ys : List PoolPage)
    (hx : ∀ p ∈ xs, ¬(p.base ≤ a ∧ a < p.base + page_size * (elems_per_ref * p.elem_size + 2))) :
    free_in_pages a (xs ++ ys) = xs ++ free_in_pages a ys := by
  induction xs with
  | nil => rfl
  | cons p xs ih =>
    rw [List.cons_append, free_in_pages, if_neg (hx p (List.mem_cons_self p xs)),
      ih (fun x hxm => hx x (List.mem_cons_of_mem p hxm))]
    rfl

theorem alloc_in_pages_append_none (n : Nat) (xs ys : List PoolPage)
    (hx : alloc_in_pages n xs = none) :
    alloc_in_pages n (xs ++ ys) =
      (alloc_in_pages n ys).map (fun r => (r.1, xs ++ r.2)) := by
  induction xs with
  | nil =>
    show alloc_in_pages n ys = _
    cases alloc_in_pages n ys <;> rfl
  | cons p xs ih =>
    rw [alloc_in_pages] at hx
    by_cases hc : p.elem_size = n ∧ (p.elem_count < page_size ∨ p.free_list ≠ -1)
    · rw [if_pos hc] at hx
      exact absurd hx (by simp)
    · rw [if_neg hc] at hx
      have hxs : alloc_in_pages n xs = none := by
        cases hr : alloc_in_pages n xs with
        | none => rfl
        | some r =>
          rw [hr, Option.map_some'] at hx
          exact absurd hx (by simp)
      rw [List.cons_append, alloc_in_pages, if_neg hc, ih hxs]
      cases alloc_in_pages n ys <;> rfl

/-- C9: for every element count `n`, `allocate_array(n)`, then
`free_array` on the returned base, then `allocate_array(n)` again
returns the same base pointer: the freed slab becomes the head of its
page's free list, the `find_if` scan stops at the same page, and the
free-list pop hands the slab straight back. -/
theorem pool_alloc_free_alloc (st : PoolState) (n : Nat) (hwf : PoolWF st) :
    (allocate_array (free_array (allocate_array st n).2 (allocate_array st n).1) n).1 =
      (allocate_array st n).1 := by
  obtain ⟨⟨hdisj, hcnt, hfl⟩, hub⟩ := hwf
  cases halloc : alloc_in_pages n st.pages with
  | some r =>
    obtain ⟨b, ps'⟩ := r
    obtain ⟨l, hl⟩ := alloc_free_alloc_pages n st.pages hdisj hcnt hfl b ps' halloc
    have h1 : allocate_array st n = (b, ⟨ps', st.next_base⟩) := by
      unfold allocate_array
      rw [halloc]
    rw [h1]
    show (allocate_array ⟨free_in_pages b ps', st.next_base⟩ n).1 = b
    unfold allocate_array
    rw [hl]
  | none =>
    have h1 : allocate_array st n =
        ((alloc_in_page (fresh_page st.next_base n) n).1,
         ⟨st.pages ++ [(alloc_in_page (fresh_page st.next_base n) n).2],
          st.next_base + page_size * (elems_per_ref * n + 2)⟩) := by
      unfold allocate_array
      rw [halloc]
    have hb : (alloc_in_page (fresh_page st.next_base n) n).1 = st.next_base := by
      simp [alloc_in_page, alloc_slot, fresh_page]
    obtain ⟨⟨hr1, hr2⟩, he3, hf3, hre⟩ :=
      page_free_realloc (fresh_page st.next_base n) n
        ⟨rfl, Or.inl (by simp [fresh_page, page_size])⟩ (Or.inl rfl)
    have hnotin : ∀ p ∈ st.pages,
        ¬(p.base ≤ (alloc_in_page (fresh_page st.next_base n) n).1 ∧
          (alloc_in_page (fresh_page st.next_base n) n).1 <
            p.base + page_size * (elems_per_ref * p.elem_size + 2)) := by
      rintro p hp ⟨hlo, hhi⟩
      have hu := hub p hp
      unfold pageRange at hu
      rw [hb] at hhi
      omega
    have h2 : free_in_pages (alloc_in_page (fresh_page st.next_base n) n).1
        (st.pages ++ [(alloc_in_page (fresh_page st.next_base n) n).2]) =
        st.pages ++ [free_in_page (alloc_in_page (fresh_page st.next_base n) n).2
          (alloc_in_page (fresh_page st.next_base n) n).1] := by
      rw [free_in_pages_append _ _ _ hnotin, free_in_pages, if_pos ⟨hr1, hr2⟩]
    have h3 : alloc_in_pages n (st.pages ++
        [free_in_page (alloc_in_page (fresh_page st.next_base n) n).2
          (alloc_in_page (fresh_page st.next_base n) n).1]) =
        some ((alloc_in_page (free_in_page (alloc_in_page (fresh_page st.next_base n) n).2
            (alloc_in_page (fresh_page st.next_base n) n).1) n).1,
          st.pages ++ [(alloc_in_page (free_in_page (alloc_in_page (fresh_page st.next_base n) n).2
            (alloc_in_page (fresh_page st.next_base n) n).1) n).2]) := by
      rw [alloc_in_pages_append_none n _ _ halloc, alloc_in_pages,
        if_pos ⟨he3, Or.inr hf3⟩]
      rfl
    rw [h1]
    show (allocate_array ⟨free_in_pages (alloc_in_page (fresh_page st.next_base n) n).1
        (st.pages ++ [(alloc_in_page (fresh_page st.next_base n) n).2]),
        st.next_base + page_size * (elems_per_ref * n + 2)⟩ n).1 =
      (alloc_in_page (fresh_page st.next_base n) n).1
    unfold allocate_array
    rw [h2, h3]
    exact hre

def WC9 : PoolState := ⟨[], 0⟩

/-- C9 witness: on the empty pool, a 3-element slab is allocated at
the fresh page's base, and freeing and reallocating returns it. -/
theorem pool_alloc_free_alloc_witness :
    (allocate_array (free_array (allocate_array WC9 3).2 (allocate_array WC9 3).1) 3).1 =
      (allocate_array WC9 3).1 :=
  pool_alloc_free_alloc WC9 3
    (by refine ⟨⟨List.Pairwise.nil, ?_, ?_⟩, ?_⟩ <;> exact fun p hp => absurd hp (List.not_mem_nil p))

/-! ## The registry hierarchy protocol (single entity)

The registry and storage layer (`basic_registry`, `assure`,
`emplace_ref`, `erase_value`, `erase_ref`, `remove`, entity
destruction) is absent from `src/`.  Modelled from the spec:
storage-contract sections on `emplace_ref` / `erase_value` /
`erase_ref` / `remove`, combined with the fan-out and deleter code
that is in `src/` (`emplace_hierarchy_references` /
`erase_hierarchy_references`, polymorphic.hpp 669-678, and `deleter`,
polymorphic.hpp 767-769).

Component types are numbered; `par t` is the (duplicate-free)
transitive parent list of type `t`.  Cells are modelled at the
storage interface: whether the cell owns a value, and the foreign
reference records it holds (the cell-internal self-record of the
value-plus-list state is bookkeeping below this interface; the
cell-level theorems above cover it).  A record's `target` names the
concrete type whose value it points at (one value per type per
entity, addresses are type-determined), and `del` names the concrete
type whose `erase_value` its stored deleter invokes
(`&polymorphic_component_container<T>::deleter`). -/

structure RRef where
  target : Nat
  del : Nat
deriving DecidableEq, Repr

/-- A cell at the storage interface: owned value plus foreign
reference records.  The all-empty cell stands for "no cell" (the
storage releases empty cells; re-created cells are indistinguishable
at this interface). -/
structure RCell where
  value : Bool
  refs : List RRef
deriving DecidableEq, Repr

/-- The per-entity registry slice: one cell per component type. -/
def Reg : Type := Nat → RCell

/-- The registry slice with no components attached. -/
def emptyReg : Reg := fun _ => ⟨false, []⟩

/-- Replace one type's cell. -/
def upd (σ : Reg) (t : Nat) (c : RCell) : Reg :=
  fun x => if x = t then c else σ x

/-- `emplace_ref`: push one reference record into a cell
(`add_ref` / list `push_back` at the cell level). -/
def addRef (c : RCell) (r : RRef) : RCell := ⟨c.value, c.refs ++ [r]⟩

/-- `erase_ref` on one cell: drop the record(s) whose pointer is the
given target's value (the cell-level `delete_ref` removes the unique
such entry; under the invariant there is exactly one). -/
def removeRefPtr (c : RCell) (t : Nat) : RCell :=
  ⟨c.value, c.refs.filter (fun r => decide (r.target ≠ t))⟩

/-- `emplace_hierarchy_references`: fan `emplace_ref(entity, v,
&deleter)` out over the transitive parents. -/
def fanout_add (par : Nat → List Nat) (σ : Reg) (t : Nat) : Reg :=
  (par t).foldl (fun s v => upd s v (addRef (s v) ⟨t, t⟩)) σ

/-- `erase_hierarchy_references`: fan `erase_ref(entity, v)` out over
the transitive parents. -/
def fanout_remove (par : Nat → List Nat) (σ : Reg) (t : Nat) : Reg :=
  (par t).foldl (fun s v => upd s v (removeRefPtr (s v) t)) σ

/-- `emplace<T>` of a concrete value: construct the value (no-op when
one is already attached, the source asserts) and fan out parent
references (`construct_value` + `emplace_hierarchy_references`). -/
def emplace_value (par : Nat → List Nat) (σ : Reg) (t : Nat) : Reg :=
  if (σ t).value then σ
  else fanout_add par (upd σ t ⟨true, (σ t).refs⟩) t

/-- `erase_value` (the deleter's effect, `destroy_value` inside): fan
out `erase_ref` over the parents, then destroy the owned value; the
cell keeps its own records and is released when empty. -/
def erase_value (par : Nat → List Nat) (σ : Reg) (t : Nat) : Reg :=
  if (σ t).value then
    upd (fanout_remove par σ t) t ⟨false, ((fanout_remove par σ t) t).refs⟩
  else σ

/-- The deleter cascade of `destroy_all_refs`: invoke each record's
stored deleter in turn (each runs `erase_value` on its own concrete
type's storage). -/
def cascade_refs (par : Nat → List Nat) (σ : Reg) : List RRef → Reg
  | [] => σ
  | r :: rs => cascade_refs par (erase_value par σ r.del) rs

/-- `remove<U>(entity)`: erase the owned value when `U`'s cell holds
one, otherwise cascade every held reference through its deleter
(reverse order, as in `destroy_all_refs`). -/
def remove_op (par : Nat → List Nat) (σ : Reg) (u : Nat) : Reg :=
  if (σ u).value then erase_value par σ u
  else cascade_refs par σ ((σ u).refs).reverse

/-- Entity destruction: remove every component type in turn. -/
def destroy_entity (par : Nat → List Nat) (σ : Reg) : List Nat → Reg
  | [] => σ
  | t :: ts => destroy_entity par (remove_op par σ t) ts

/-- The public registry operations of the claim. -/
inductive RegOp where
  | emp (t : Nat)
  | ers (t : Nat)
  | rem (u : Nat)
  | des (ts : List Nat)
deriving DecidableEq, Repr

def applyOp (par : Nat → List Nat) (σ : Reg) : RegOp → Reg
  | .emp t => emplace_value par σ t
  | .ers t => erase_value par σ t
  | .rem u => remove_op par σ u
  | .des ts => destroy_entity par σ ts

def applyOps (par : Nat → List Nat) (σ : Reg) : List RegOp → Reg
  | [] => σ
  | op :: ops => applyOps par (applyOp par σ op) ops

/-- How many records of a cell point at type `t`'s value. -/
def countTgt (t : Nat) (l : List RRef) : Nat :=
  (l.filter (fun r => decide (r.target = t))).length

/-- The hierarchy invariant: every live value has exactly one record
in each ancestor cell, and every record carries the matching deleter,
points at a live value, and sits in an ancestor cell of its target. -/
def INV (par : Nat → List Nat) (σ : Reg) : Prop :=
  (∀ t, (σ t).value = true → ∀ u ∈ par t, countTgt t ((σ u).refs) = 1) ∧
  (∀ u, ∀ r ∈ (σ u).refs,
    r.del = r.target ∧ (σ r.target).value = true ∧ u ∈ par r.target)

theorem upd_self (σ : Reg) (t : Nat) (c : RCell) : upd σ t c t = c := by
  unfold upd
  simp

theorem upd_other (σ : Reg) (t u : Nat) (c : RCell) (h : u ≠ t) : upd σ t c u = σ u := by
  unfold upd
  simp [h]

/-- Effect of a fan-out fold at one cell: with a duplicate-free
parent list, the payload applies exactly once to each member. -/
theorem foldl_upd_at (g : RCell → RCell) (l : List Nat) (hnd : l.Nodup) (σ : Reg) (u : Nat) :
    (l.foldl (fun s v => upd s v (g (s v))) σ) u = if u ∈ l then g (σ u) else σ u := by
  induction l generalizing σ with
  | nil => simp
  | cons v l ih =>
    rw [List.foldl_cons, ih (List.nodup_cons.mp hnd).2]
    by_cases hu : u = v
    · subst hu
      rw [if_neg (fun hm => (List.nodup_cons.mp hnd).1 hm), upd_self,
        if_pos (List.mem_cons_self u l)]
    · rw [upd_other _ _ _ _ hu]
      by_cases hm : u ∈ l
      · rw [if_pos hm, if_pos (List.mem_cons_of_mem v hm)]
      · rw [if_neg hm, if_neg (fun hc => hm ((List.mem_cons.mp hc).resolve_left hu))]

theorem fanout_add_at (par : Nat → List Nat) (σ : Reg) (t u : Nat)
    (hnd : (par t).Nodup) :
    fanout_add par σ t u = if u ∈ par t then addRef (σ u) ⟨t, t⟩ else σ u :=
  foldl_upd_at (fun c => addRef c ⟨t, t⟩) (par t) hnd σ u

theorem fanout_remove_at (par : Nat → List Nat) (σ : Reg) (t u : Nat)
    (hnd : (par t).Nodup) :
    fanout_remove par σ t u = if u ∈ par t then removeRefPtr (σ u) t else σ u :=
  foldl_upd_at (fun c => removeRefPtr c t) (par t) hnd σ u

theorem countTgt_append_one (t : Nat) (l : List RRef) (r : RRef) :
    countTgt t (l ++ [r]) = countTgt t l + (if r.target = t then 1 else 0) := by
  unfold countTgt
  rw [List.filter_append, List.length_append]
  by_cases h : r.target = t
  · simp [List.filter_cons, h]
  · simp [List.filter_cons, h]

theorem countTgt_zero (t : Nat) (l : List RRef) (h : ∀ r ∈ l, r.target ≠ t) :
    countTgt t l = 0 := by
  unfold countTgt
  rw [List.length_eq_zero, List.filter_eq_nil]
  intro r hr
  simp [h r hr]

theorem countTgt_filter_ne (t x : Nat) (l : List RRef) :
    countTgt x (l.filter (fun r => decide (r.target ≠ t))) =
      if x = t then 0 else countTgt x l := by
  by_cases h : x = t
  · subst h
    rw [if_pos rfl]
    apply countTgt_zero
    intro r hr
    exact of_decide_eq_true (List.mem_filter.mp hr).2
  · rw [if_neg h]
    unfold countTgt
    rw [List.filter_filter]
    congr 1
    apply List.filter_congr
    intro r hr
    by_cases hx : r.target = x
    · simp [hx, h]
    · simp [hx]

/-- `emplace` preserves the hierarchy invariant. -/
theorem emplace_preserves (par : Nat → List Nat)
    (hs : ∀ t, t ∉ par t) (hnd : ∀ t, (par t).Nodup)
    (σ : Reg) (t : Nat) (h : INV par σ) : INV par (emplace_value par σ t) := by
  obtain ⟨hA, hB⟩ := h
  unfold emplace_value
  by_cases hv : (σ t).value
  · rw [if_pos hv]
    exact ⟨hA, hB⟩
  · rw [if_neg hv]
    have hval : ∀ x, (fanout_add par (upd σ t ⟨true, (σ t).refs⟩) t x).value =
        if x = t then true else (σ x).value := by
      intro x
      rw [fanout_add_at par _ t x (hnd t)]
      by_cases hm : x ∈ par t
      · have hx : x ≠ t := fun he => hs t (he ▸ hm)
        rw [if_pos hm]
        show ((upd σ t ⟨true, (σ t).refs⟩) x).value = _
        rw [upd_other _ _ _ _ hx, if_neg hx]
      · rw [if_neg hm]
        by_cases hx : x = t
        · subst hx
          rw [upd_self, if_pos rfl]
        · rw [upd_other _ _ _ _ hx, if_neg hx]
    have hrefs : ∀ x, (fanout_add par (upd σ t ⟨true, (σ t).refs⟩) t x).refs =
        if x ∈ par t then (σ x).refs ++ [⟨t, t⟩] else (σ x).refs := by
      intro x
      rw [fanout_add_at par _ t x (hnd t)]
      by_cases hm : x ∈ par t
      · have hx : x ≠ t := fun he => hs t (he ▸ hm)
        rw [if_pos hm, if_pos hm]
        show ((upd σ t ⟨true, (σ t).refs⟩) x).refs ++ [⟨t, t⟩] = _
        rw [upd_other _ _ _ _ hx]
      · rw [if_neg hm, if_neg hm]
        by_cases hx : x = t
        · subst hx
          rw [upd_self]
        · rw [upd_other _ _ _ _ hx]
    constructor
    · intro x hv' u hu
      rw [hrefs u]
      rw [hval x] at hv'
      by_cases hx : x = t
      · subst hx
        rw [if_pos hu, countTgt_append_one]
        have h0 : countTgt x ((σ u).refs) = 0 := by
          apply countTgt_zero
          intro r hr hrt
          have hb := (hB u r hr).2.1
          rw [hrt] at hb
          exact hv hb
        rw [h0]
        have htt : (⟨x, x⟩ : RRef).target = x := rfl
        rw [htt, if_pos rfl]
      · rw [if_neg hx] at hv'
        by_cases hm : u ∈ par t
        · rw [if_pos hm, countTgt_append_one]
          have htt : (⟨t, t⟩ : RRef).target = t := rfl
          rw [htt, if_neg (fun he => hx he.symm), Nat.add_zero]
          exact hA x hv' u hu
        · rw [if_neg hm]
          exact hA x hv' u hu
    · intro u r hr
      rw [hrefs u] at hr
      by_cases hm : u ∈ par t
      · rw [if_pos hm] at hr
        rcases List.mem_append.mp hr with hmo | hmn
        · obtain ⟨hd, hvv, hp⟩ := hB u r hmo
          refine ⟨hd, ?_, hp⟩
          rw [hval r.target]
          by_cases hx : r.target = t
          · rw [if_pos hx]
          · rw [if_neg hx]
            exact hvv
        · have hrt : r = ⟨t, t⟩ := by simpa using hmn
          subst hrt
          refine ⟨rfl, ?_, hm⟩
          rw [hval]
          simp
      · rw [if_neg hm] at hr
        obtain ⟨hd, hvv, hp⟩ := hB u r hr
        refine ⟨hd, ?_, hp⟩
        rw [hval r.target]
        by_cases hx : r.target = t
        · rw [if_pos hx]
        · rw [if_neg hx]
          exact hvv

/-- `erase_value` (each deleter invocation) preserves the hierarchy
invariant. -/
theorem erase_preserves (par : Nat → List Nat)
    (hs : ∀ t, t ∉ par t) (hnd : ∀ t, (par t).Nodup)
    (σ : Reg) (t : Nat) (h : INV par σ) : INV par (erase_value par σ t) := by
  obtain ⟨hA, hB⟩ := h
  unfold erase_value
  by_cases hv : (σ t).value
  · rw [if_pos hv]
    have hfr : ∀ x, (fanout_remove par σ t) x =
        if x ∈ par t then removeRefPtr (σ x) t else σ x :=
      fun x => fanout_remove_at par σ t x (hnd t)
    have hval : ∀ x, ((upd (fanout_remove par σ t) t
        ⟨false, ((fanout_remove par σ t) t).refs⟩) x).value =
        if x = t then false else (σ x).value := by
      intro x
      by_cases hx : x = t
      · subst hx
        rw [upd_self, if_pos rfl]
      · rw [upd_other _ _ _ _ hx, if_neg hx, hfr x]
        by_cases hm : x ∈ par t
        · rw [if_pos hm]
          rfl
        · rw [if_neg hm]
    have hrefs : ∀ x, ((upd (fanout_remove par σ t) t
        ⟨false, ((fanout_remove par σ t) t).refs⟩) x).refs =
        if x ∈ par t then (σ x).refs.filter (fun r => decide (r.target ≠ t))
        else (σ x).refs := by
      intro x
      by_cases hx : x = t
      · subst hx
        rw [upd_self, if_neg (hs x)]
        show ((fanout_remove par σ x) x).refs = (σ x).refs
        rw [hfr x, if_neg (hs x)]
      · rw [upd_other _ _ _ _ hx, hfr x]
        by_cases hm : x ∈ par t
        · rw [if_pos hm, if_pos hm]
          rfl
        · rw [if_neg hm, if_neg hm]
    constructor
    · intro x hv' u hu
      rw [hval x] at hv'
      by_cases hx : x = t
      · rw [if_pos hx] at hv'
        exact absurd hv' (by simp)
      · rw [if_neg hx] at hv'
        rw [hrefs u]
        by_cases hm : u ∈ par t
        · rw [if_pos hm, countTgt_filter_ne, if_neg hx]
          exact hA x hv' u hu
        · rw [if_neg hm]
          exact hA x hv' u hu
    · intro u r hr
      rw [hrefs u] at hr
      by_cases hm : u ∈ par t
      · rw [if_pos hm] at hr
        have hmf := List.mem_filter.mp hr
        have hne : r.target ≠ t := of_decide_eq_true hmf.2
        obtain ⟨hd, hvv, hp⟩ := hB u r hmf.1
        refine ⟨hd, ?_, hp⟩
        rw [hval r.target, if_neg hne]
        exact hvv
      · rw [if_neg hm] at hr
        obtain ⟨hd, hvv, hp⟩ := hB u r hr
        have hne : r.target ≠ t := fun he => hm (he ▸ hp)
        refine ⟨hd, ?_, hp⟩
        rw [hval r.target, if_neg hne]
        exact hvv
  · rw [if_neg hv]
    exact ⟨hA, hB⟩

theorem cascade_preserves (par : Nat → List Nat)
    (hs : ∀ t, t ∉ par t) (hnd : ∀ t, (par t).Nodup) :
    ∀ (rs : List RRef) (σ : Reg), INV par σ → INV par (cascade_refs par σ rs) := by
  intro rs
  induction rs with
  | nil => exact fun σ h => h
  | cons r rs ih => exact fun σ h => ih _ (erase_preserves par hs hnd σ r.del h)

theorem remove_preserves (par : Nat → List Nat)
    (hs : ∀ t, t ∉ par t) (hnd : ∀ t, (par t).Nodup)
    (σ : Reg) (u : Nat) (h : INV par σ) : INV par (remove_op par σ u) := by
  unfold remove_op
  by_cases hv : (σ u).value
  · rw [if_pos hv]
    exact erase_preserves par hs hnd σ u h
  · rw [if_neg hv]
    exact cascade_preserves par hs hnd _ σ h

theorem destroy_preserves (par : Nat → List Nat)
    (hs : ∀ t, t ∉ par t) (hnd : ∀ t, (par t).Nodup) :
    ∀ (ts : List Nat) (σ : Reg), INV par σ → INV par (destroy_entity par σ ts) := by
  intro ts
  induction ts with
  | nil => exact fun σ h => h
  | cons t ts ih => exact fun σ h => ih _ (remove_preserves par hs hnd σ t h)

theorem applyOps_preserves (par : Nat → List Nat)
    (hs : ∀ t, t ∉ par t) (hnd : ∀ t, (par t).Nodup) :
    ∀ (ops : List RegOp) (σ : Reg), INV par σ → INV par (applyOps par σ ops) := by
  intro ops
  induction ops with
  | nil => exact fun σ h => h
  | cons op ops ih =>
    intro σ h
    refine ih _ ?_
    cases op with
    | emp t => exact emplace_preserves par hs hnd σ t h
    | ers t => exact erase_preserves par hs hnd σ t h
    | rem u => exact remove_preserves par hs hnd σ u h
    | des ts => exact destroy_preserves par hs hnd ts σ h

/-- C1: in every registry state reachable from the empty entity by
the public operations (emplace of a concrete value, erase of a value,
`remove` of any type - concrete or ancestor - and entity
destruction), every live value of type `t` has exactly one reference
record in the cell of each type in `parents(t)`, every record's
deleter erases exactly its target's concrete type, every record
points at a live value, and records appear only in ancestor cells of
their target; the fan-out `emplace_ref` / `erase_ref` calls occur
inside these operations and therefore preserve the invariant at every
operation boundary. -/
theorem registry_hierarchy_invariant (par : Nat → List Nat)
    (hs : ∀ t, t ∉ par t) (hnd : ∀ t, (par t).Nodup)
    (ops : List RegOp) :
    INV par (applyOps par emptyReg ops) := by
  apply applyOps_preserves par hs hnd ops emptyReg
  constructor
  · intro x hv' u hu
    exact absurd hv' (by simp [emptyReg])
  · intro u r hr
    exact absurd hr (by simp [emptyReg])

/-- The witness hierarchy: type 1 is concrete with single ancestor 0. -/
def parW : Nat → List Nat := fun t => if t = 1 then [0] else []

/-- C1 witness: emplacing a value of type 1 and then removing through
the ancestor type 0 keeps the invariant. -/
theorem registry_hierarchy_invariant_witness :
    INV parW (applyOps parW emptyReg [RegOp.emp 1, RegOp.rem 0]) :=
  registry_hierarchy_invariant parW
    (by intro t
        by_cases h : t = 1 <;> simp [parW, h])
    (by intro t
        by_cases h : t = 1 <;> simp [parW, h])
    [RegOp.emp 1, RegOp.rem 0]

end EnttPoly
